import Mathlib

/-!
# Word filter: trie, lookup, removal, prefix and fuzzy search, and the filter scan

A shallow embedding of `src/word-filter.go`.

* A Go `rune` is a natural number; a Go `string` is identified with the list
  of its code points (`[]rune(s)`), which is how every operation of the
  source reads its arguments.  The one place where the source looks at the
  bytes of a string is `len(a[i])` in `ByKeys.Less`: the length of a string in
  bytes is `byteLen`, the sum of the UTF-8 widths of its code points.
* A `*Node` graph is a finite tree: `Node.mk fields children`, where
  `children` is the Go map `map[rune]*Node` kept as an association list
  (`mapGet`, `mapSet`, `mapDelete`).  The list order stands for the
  unspecified iteration order of the Go map; results that depend on it are
  only compared as sets.
* The `parent` pointer of a node is its position in the tree: the ancestor
  at depth `d` of the node reached from the root along `rs` is the node
  reached along `rs.take d`.
* An outer `Option` on a result means "the call may panic": `none` is a
  run-time panic, `some r` is a normal return of `r`.  A Go slice result is an
  `Option (List _)` whose `none` is the `nil` slice.
-/

namespace WordFilter

/-- A Go `rune`. -/
abbrev Rune := Nat

/-- A Go `string`, as the sequence of its code points. -/
abbrev Key := List Rune

/-- The constant `nul = 0x0`. -/
def nul : Rune := 0

/-- The scalar fields of `type Node struct` (all fields but `parent` and
`children`). -/
structure Fields (μ : Type) where
  val : Rune
  path : Key
  term : Bool
  end_ : Bool
  depth : Nat
  meta : Option μ
  mask : Nat
  termCount : Nat

/-- The struct `Node`: its scalar fields and its `children` map. -/
inductive Node (μ : Type) where
  | mk (f : Fields μ) (children : List (Rune × Node μ))

/-- The struct `Trie` (the mutex is not modelled: calls are sequential). -/
structure Trie (μ : Type) where
  root : Node μ
  size : Int

/-! ## Go maps as association lists -/

/-- The lookup `m[r]` with its `ok` flag. -/
def mapGet {β : Type} : List (Rune × β) → Rune → Option β
  | [], _ => none
  | (k, v) :: rest, r => if k = r then some v else mapGet rest r

/-- The assignment `m[r] = v`: replaces the entry of `r` or adds one. -/
def mapSet {β : Type} : List (Rune × β) → Rune → β → List (Rune × β)
  | [], r, v => [(r, v)]
  | (k, w) :: rest, r, v =>
    if k = r then (k, v) :: rest else (k, w) :: mapSet rest r v

/-- The statement `delete(m, r)`. -/
def mapDelete {β : Type} : List (Rune × β) → Rune → List (Rune × β)
  | [], _ => []
  | (k, w) :: rest, r => if k = r then rest else (k, w) :: mapDelete rest r

namespace Node

variable {μ : Type}

def fields : Node μ → Fields μ
  | .mk f _ => f

def children : Node μ → List (Rune × Node μ)
  | .mk _ cs => cs

def val (n : Node μ) : Rune := n.fields.val
def path (n : Node μ) : Key := n.fields.path
def term (n : Node μ) : Bool := n.fields.term
def end_ (n : Node μ) : Bool := n.fields.end_
def depth (n : Node μ) : Nat := n.fields.depth
def meta (n : Node μ) : Option μ := n.fields.meta
def mask (n : Node μ) : Nat := n.fields.mask
def termCount (n : Node μ) : Nat := n.fields.termCount

/-- The update `n.mask |= m`. -/
def orMask (n : Node μ) (m : Nat) : Node μ :=
  .mk { n.fields with mask := n.fields.mask ||| m } n.children

/-- The update `n.mask = m`. -/
def setMask (n : Node μ) (m : Nat) : Node μ :=
  .mk { n.fields with mask := m } n.children

/-- The update `n.termCount++`. -/
def incTermCount (n : Node μ) : Node μ :=
  .mk { n.fields with termCount := n.fields.termCount + 1 } n.children

/-- The update `n.end = true`. -/
def setEnd (n : Node μ) : Node μ :=
  .mk { n.fields with end_ := true } n.children

/-- The update `n.children[r] = c`; also stands for "the child `c` stored
under `r` was modified in place". -/
def setChild (n : Node μ) (r : Rune) (c : Node μ) : Node μ :=
  .mk n.fields (mapSet n.children r c)

/-- The update `delete(n.children, r)`. -/
def deleteChild (n : Node μ) (r : Rune) : Node μ :=
  .mk n.fields (mapDelete n.children r)

end Node

variable {μ : Type}

/-- The bit `uint64(1) << uint64(r - 'a')`.  A Go shift by 64 or more yields 0,
and for `r < 'a'` the `int32` difference is negative, so its conversion to
`uint64` is at least `2^63`: the bit is 0 outside `'a' .. 'a' + 63`. -/
def maskBit (r : Rune) : Nat :=
  if 97 ≤ r ∧ r < 97 + 64 then 2 ^ (r - 97) else 0

/-- The function `maskruneslice`. -/
def maskruneslice (rs : List Rune) : Nat :=
  rs.foldl (fun m r => m ||| maskBit r) 0

/-- The function `New`. -/
def New : Trie μ :=
  { root := .mk { val := 0, path := [], term := false, end_ := false, depth := 0,
                  meta := none, mask := 0, termCount := 0 } [],
    size := 0 }

/-- The node allocated by `NewChild` (its `children` map is empty, `end` and
`termCount` are zero values). -/
def newNode (parent : Node μ) (val : Rune) (path : Key) (bitmask : Nat)
    (meta : Option μ) (term : Bool) : Node μ :=
  .mk { val := val, path := path, term := term, end_ := false,
        depth := parent.depth + 1, meta := meta, mask := bitmask, termCount := 0 } []

/-- The method `NewChild`: the parent after the call, and the new node. -/
def Node.NewChild (parent : Node μ) (val : Rune) (path : Key) (bitmask : Nat)
    (meta : Option μ) (term : Bool) : Node μ × Node μ :=
  let node := newNode parent val path bitmask meta term
  (.mk { parent.fields with mask := parent.fields.mask ||| bitmask }
       (mapSet parent.children val node), node)

/-- The loop of `Add` from the node `node` on, with `rs = runes[i:]`, followed
by the final `node.NewChild(nul, key, 0, meta, true)`.  Returns `node` after
all updates below it. -/
def addLoop (key : Key) (meta : Option μ) : Node μ → List Rune → Node μ
  | node, [] => (node.NewChild nul key 0 meta true).1
  | node, r :: rest =>
    let bitmask := maskruneslice (r :: rest)
    let pn : Node μ × Node μ :=
      match mapGet node.children r with
      | some n => (node, n.orMask bitmask)
      | none => node.NewChild r [] bitmask none false
    let n := pn.2.incTermCount
    let n := if rest = [] then n.setEnd else n
    pn.1.setChild r (addLoop key meta n rest)

/-- The method `Trie.Add` (the trie after the call). -/
def Trie.Add (t : Trie μ) (key : Key) (meta : Option μ) : Trie μ :=
  { root := addLoop key meta ((t.root.orMask (maskruneslice key)).incTermCount) key,
    size := t.size + 1 }

/-- The function `findNode` on a non-nil node; `none` is the `nil` result. -/
def findNode : Node μ → List Rune → Option (Node μ)
  | node, [] => some node
  | node, r :: rest =>
    match mapGet node.children r with
    | none => none
    | some n => findNode n rest

/-- The method `Trie.Find`: `some node` is `(node, true)`, `none` is
`(nil, false)`. -/
def Trie.Find (t : Trie μ) (key : Key) : Option (Node μ) :=
  match findNode t.root key with
  | none => none
  | some node =>
    match mapGet node.children nul with
    | none => none
    | some n => if n.term then some n else none

/-- The method `Trie.HasKeysWithPrefix`. -/
def Trie.HasKeysWithPrefix (t : Trie μ) (key : Key) : Bool :=
  (findNode t.root key).isSome

/-- The mask recomputed by `RemoveChild` for an ancestor `nd`. -/
def remask (nd : Node μ) : Node μ :=
  nd.setMask (nd.children.foldl (fun m c => m ||| c.2.mask) (0 ||| maskBit nd.val))

/-- The method `RemoveChild(r)` called on the node reached from `nd` along
`path`: that node loses its child `r`, and every proper ancestor, from the
deepest up, has its mask recomputed. -/
def detach (r : Rune) : Node μ → List Rune → Node μ
  | n, [] => n.deleteChild r
  | nd, x :: xs =>
    match mapGet nd.children x with
    | none => nd
    | some c => remask (nd.setChild x (detach r c xs))

/-- The loop of `Remove`: `removeLoop root rs (d + 1)` is the iteration in
which `n` is the ancestor at depth `d` (so `i = len(rs) - d` after `i++` and
`rs[len(rs)-i] = rs[d]`); `removeLoop root rs 0` is the exit with `n == nil`. -/
def removeLoop (root : Node μ) (rs : List Rune) : Nat → Node μ
  | 0 => root
  | d + 1 =>
    match findNode root (rs.take d) with
    | none => root
    | some n =>
      if n.children.length > 1 then detach (rs.getD d 0) root (rs.take d)
      else removeLoop root rs d

/-- The method `Trie.Remove`.  When `findNode` returns `nil`, the call
`node.Parent()` dereferences a nil pointer: the result is `none`. -/
def Trie.Remove (t : Trie μ) (key : Key) : Option (Trie μ) :=
  match findNode t.root key with
  | none => none
  | some _ => some { root := removeLoop t.root key key.length, size := t.size - 1 }

/-! ## collect, PrefixSearch, Keys -/

mutual
/-- Number of nodes of a subtree. -/
def Node.count : Node μ → Nat
  | .mk _ cs => 1 + countList cs
/-- Number of nodes below a `children` map. -/
def countList : List (Rune × Node μ) → Nat
  | [] => 0
  | (_, c) :: rest => c.count + countList rest
end

/-- Number of nodes in and below the nodes of a work list. -/
def countStack : List (Node μ) → Nat
  | [] => 0
  | n :: rest => n.count + countStack rest

/-- The loop of `collect`.  The work list `nodes` is kept with the top of the
Go slice (its last element) at the head; a step pops `n`, pushes the children
of `n` and appends `n.path` when `n.term`.  Returns the work list and the keys
when the fuel is used up or the work list is empty. -/
def collectLoop : Nat → List (Node μ) → List Key → List (Node μ) × List Key
  | 0, nodes, keys => (nodes, keys)
  | _ + 1, [], keys => ([], keys)
  | fuel + 1, n :: nodes, keys =>
    collectLoop fuel ((n.children.map Prod.snd).reverse ++ nodes)
      (if n.term then keys ++ [n.path] else keys)

/-- The function `collect`.  `make([]*Node, 1, len(node.children))` panics
when the node has no children (length 1 exceeds capacity 0).  The slice `keys`
is declared `nil` and only grows by `append`: it is `nil` exactly when nothing
was appended. -/
def collect (node : Node μ) : Option (Option (List Key)) :=
  if node.children.length = 0 then none
  else
    match (collectLoop node.count [node] []).2 with
    | [] => some none
    | k :: ks => some (some (k :: ks))

/-- The method `Trie.PrefixSearch`. -/
def Trie.PrefixSearch (t : Trie μ) (pre : Key) : Option (Option (List Key)) :=
  match findNode t.root pre with
  | none => some none
  | some node => collect node

/-- The method `Trie.Keys`. -/
def Trie.Keys (t : Trie μ) : Option (Option (List Key)) :=
  if t.size = 0 then some (some []) else t.PrefixSearch []

/-! ## Filter -/

/-- The variables of `Filter` that live across both loops. -/
structure FilterState (μ : Type) where
  node : Node μ
  start : Nat
  left : List Rune
  hit : Bool
  k : Nat

/-- The loop `for n := a; n < b; n++ { left = append(left, []rune(replace)...) }`
run for `cnt = b - a` rounds. -/
def appendReplace (left replace : List Rune) : Nat → List Rune
  | 0 => left
  | cnt + 1 => appendReplace (left ++ replace) replace cnt

/-- The slice expression `chars[a:b]` for `a ≤ b ≤ len(chars)`.  `Filter`
evaluates `chars[start:k+1]` with `k < len(chars)` and `start ≤ k + 1` (see
`filterInner_start`), so the expression is in range there. -/
def slice (chars : List Rune) (a b : Nat) : List Rune :=
  (chars.drop a).take (b - a)

/-- The inner loop `for j := k; j < len(chars); j++` of `Filter`, from the
test `j < len(chars)` on; `chars[j]? = none` is the exit of the loop.  The
fuel `len(chars) - j` is what the loop can use. -/
def filterInner (root : Node μ) (chars replace : List Rune) :
    Nat → Nat → Bool → FilterState μ → FilterState μ
  | 0, _, _, st => st
  | fuel + 1, j, macthEnd, st =>
    match chars[j]? with
    | none => st
    | some c =>
      match mapGet st.node.children c with
      | none =>
        if macthEnd then
          { st with node := root,
                    left := appendReplace st.left replace (j - st.start),
                    start := j, k := j - 1 }
        else
          { st with node := root,
                    left := st.left ++ slice chars st.start (st.k + 1),
                    start := st.k + 1 }
      | some ret =>
        if ret.end_ then
          if j = chars.length - 1 then
            filterInner root chars replace fuel (j + 1) true
              { node := ret, hit := true,
                left := appendReplace st.left replace (j + 1 - st.start),
                start := j + 1, k := j }
          else
            filterInner root chars replace fuel (j + 1) true
              { st with node := ret, hit := true }
        else
          filterInner root chars replace fuel (j + 1) macthEnd { st with node := ret }

/-- The outer loop `for k := 0; k < len(chars); k++` of `Filter`, from the
test `k < len(chars)` on. -/
def filterOuter (root : Node μ) (chars replace : List Rune) :
    Nat → FilterState μ → FilterState μ
  | 0, st => st
  | fuel + 1, st =>
    if st.k < chars.length then
      let st1 := filterInner root chars replace (chars.length - st.k) st.k false st
      filterOuter root chars replace fuel { st1 with k := st1.k + 1 }
    else st

/-- The method `Trie.Filter` (the root of a trie made by `New` is never nil). -/
def Trie.Filter (t : Trie μ) (text replace : Key) : Key × Bool :=
  let st := filterOuter t.root text replace text.length
    { node := t.root, start := 0, left := [], hit := false, k := 0 }
  (st.left, st.hit)

/-! ## Tries built by a sequence of calls -/

/-- The code points of a string literal, `[]rune(s)`. -/
def runes (s : String) : Key := s.toList.map Char.toNat

/-- The trie after `New()` and then `Add(k, m)` for each `(k, m)` of `adds`,
in order. -/
def build (adds : List (Key × Option μ)) : Trie μ :=
  adds.foldl (fun t a => t.Add a.1 a.2) New

/-- The trie after `New()` and `Add(w, nil)` for each word of `ws`. -/
def lexicon (ws : List String) : Trie Unit :=
  build (ws.map (fun w => (runes w, none)))

/-- The part of `Find` after the root is fixed: descend, then look for a
terminal child under `nul`. -/
def findTerm (n : Node μ) (key : Key) : Option (Node μ) :=
  match findNode n key with
  | none => none
  | some node =>
    match mapGet node.children nul with
    | none => none
    | some c => if c.term then some c else none

/-- `Chain v n`: the only path below `n` spells `v`, one child per node, and
`end` is set on the last node of the path and on no other. -/
def Chain : List Rune → Node μ → Prop
  | [], _ => True
  | c :: v, n => ∃ n1, n.children = [(c, n1)] ∧ n1.end_ = decide (v = []) ∧ Chain v n1

/-- `ReachBy n s m`: following, child by child, entries of the `children`
maps labelled by the code points of `s` leads from `n` to `m`. -/
inductive ReachBy : Node μ → List Rune → Node μ → Prop
  | here (n : Node μ) : ReachBy n [] n
  | step {n c m : Node μ} {r : Rune} {s : List Rune} :
      (r, c) ∈ n.children → ReachBy c s m → ReachBy n (r :: s) m

/-! ## FuzzySearch -/

/-- The struct `potentialSubtree`. -/
structure potentialSubtree (μ : Type) where
  idx : Nat
  node : Node μ

/-- The loop of `fuzzycollect` over the pattern `pat` (the parameter `partial`
of the source, a reserved word here).  The work list `potential` is kept with the top of the Go
slice at the head.  `none` is a panic: the index expression `partial[p.idx]`
out of range, or a panic of `collect`.  Returns the work list and the keys when
the fuel is used up or the work list is empty. -/
def fuzzyLoop (pat : List Rune) :
    Nat → List (potentialSubtree μ) → List Key →
      Option (List (potentialSubtree μ) × List Key)
  | 0, potential, keys => some (potential, keys)
  | _ + 1, [], keys => some ([], keys)
  | fuel + 1, p :: potential, keys =>
    let m := maskruneslice (pat.drop p.idx)
    if p.node.mask &&& m ≠ m then fuzzyLoop pat fuel potential keys
    else
      match pat[p.idx]? with
      | none => none
      | some c =>
        if p.node.val = c then
          if p.idx + 1 = pat.length then
            match collect p.node with
            | none => none
            | some ks => fuzzyLoop pat fuel potential (keys ++ ks.getD [])
          else
            fuzzyLoop pat fuel
              ((p.node.children.map (fun c => potentialSubtree.mk (p.idx + 1) c.2)).reverse
                ++ potential) keys
        else
          fuzzyLoop pat fuel
            ((p.node.children.map (fun c => potentialSubtree.mk p.idx c.2)).reverse
              ++ potential) keys

/-- The function `fuzzycollect`.  The slice `keys` is declared `nil` and only
grows by `append`: it is `nil` exactly when nothing was appended. -/
def fuzzycollect (node : Node μ) (pat : List Rune) : Option (Option (List Key)) :=
  if pat.length = 0 then collect node
  else
    match fuzzyLoop pat node.count [potentialSubtree.mk 0 node] [] with
    | none => none
    | some (_, []) => some none
    | some (_, k :: ks) => some (some (k :: ks))

/-- Number of bytes of the UTF-8 encoding of a code point: 1 below `0x80`,
2 below `0x800`, 3 below `0x10000`, 4 up to `0x10FFFF`.  A value that is
not a code point of any string (above `0x10FFFF`) is given the 3 bytes of
`U+FFFD`, which is what Go writes for it. -/
def utf8Len (r : Rune) : Nat :=
  if r < 0x80 then 1
  else if r < 0x800 then 2
  else if r < 0x10000 then 3
  else if r < 0x110000 then 4
  else 3

/-- The built-in `len(s)` of a Go string `s`: its number of bytes. -/
def byteLen (s : Key) : Nat := (s.map utf8Len).sum

/-- The method `ByKeys.Less`, on the two elements compared:
`len(a[i]) < len(a[j])`, the lengths being byte lengths of strings. -/
def ByKeys.Less (a b : Key) : Bool := decide (byteLen a < byteLen b)

/-- The call `sort.Sort(ByKeys(keys))` of the Go standard library, which
promises a permutation of `keys` in which no element is `Less` than an earlier
one (the library sort is not stable, so the order among keys of equal byte
length is not fixed by the source).  An insertion sort driven by `ByKeys.Less` stands
for it. -/
def sortByKeys (keys : List Key) : List Key :=
  keys.insertionSort (fun a b => ByKeys.Less b a = false)

/-- The method `Trie.FuzzySearch` (sorting a `nil` slice leaves it `nil`). -/
def Trie.FuzzySearch (t : Trie μ) (pre : Key) : Option (Option (List Key)) :=
  match fuzzycollect t.root pre with
  | none => none
  | some none => some none
  | some (some keys) => some (some (sortByKeys keys))

/-! ## Predicates used in the statements -/

/-- A key over the lower-case letters `a` .. `z`. -/
def lowerCase (k : Key) : Prop := ∀ r ∈ k, 97 ≤ r ∧ r ≤ 122

/-- The bit set `mask` holds every bit of `m`: the test `(mask & m) == m`. -/
def maskIncl (mask m : Nat) : Prop := mask &&& m = m

/-- The tries that `New()`, `Add` calls with keys in `P`, and `Remove` calls on
stored keys (keys that `Find` reports found) lead to. -/
inductive Reachable (P : Key → Prop) : Trie μ → Prop
  | new : Reachable P New
  | add {t : Trie μ} (key : Key) (meta : Option μ) :
      Reachable P t → P key → Reachable P (t.Add key meta)
  | remove {t t1 : Trie μ} (key : Key) :
      Reachable P t → (t.Find key).isSome = true → t.Remove key = some t1 →
      Reachable P t1

/-- What one node and its children satisfy in a reachable trie: the mask of
the node holds its own letter bit and the mask of each child, a child carries
the code point it is stored under, and a child stored under a code point other
than `nul` has a child of its own. -/
def LocalOK (n : Node μ) : Prop :=
  maskIncl n.mask (maskBit n.val) ∧
  ∀ r c, (r, c) ∈ n.children →
    maskIncl n.mask c.mask ∧ c.val = r ∧ (r ≠ nul → c.children ≠ [])

/-- `LocalOK` at every node of a subtree. -/
inductive Good : Node μ → Prop
  | mk (n : Node μ) : LocalOK n → (∀ r c, (r, c) ∈ n.children → Good c) → Good n

mutual
/-- Number of nodes of a subtree whose `term` flag is set. -/
def Node.termNodes : Node μ → Nat
  | .mk f cs => (if f.term then 1 else 0) + termNodesList cs
/-- Number of nodes with `term` set below a `children` map. -/
def termNodesList : List (Rune × Node μ) → Nat
  | [] => 0
  | (_, c) :: rest => c.termNodes + termNodesList rest
end

/-- The facts that hold in every reachable trie. -/
def TrieOK (t : Trie μ) : Prop :=
  Good t.root ∧ t.root.val = 0 ∧
  ∀ s m, ReachBy t.root s m → m.term = true → s = m.path ++ [nul]

/-- In the subtree of `n`, a child stored under `nul` is a terminal node
without children (what `Add` calls with NUL-free keys leave). -/
inductive NulLeaf : Node μ → Prop
  | mk (n : Node μ) :
      (∀ c, mapGet n.children nul = some c → c.term = true ∧ c.children = []) →
      (∀ r c, (r, c) ∈ n.children → NulLeaf c) → NulLeaf n

/-! ## Lemmas on maps and on field updates -/

@[simp] theorem mapGet_mapSet_same {β : Type} (l : List (Rune × β)) (r : Rune) (v : β) :
    mapGet (mapSet l r v) r = some v := by
  induction l with
  | nil => simp [mapSet, mapGet]
  | cons a l ih =>
    obtain ⟨k, w⟩ := a
    by_cases h : k = r <;> simp [mapSet, mapGet, h, ih]

theorem mapGet_mapSet_ne {β : Type} (l : List (Rune × β)) {r x : Rune} (v : β) (h : r ≠ x) :
    mapGet (mapSet l r v) x = mapGet l x := by
  induction l with
  | nil => simp [mapSet, mapGet, h]
  | cons a l ih =>
    obtain ⟨k, w⟩ := a
    by_cases hk : k = r
    · subst hk; simp [mapSet, mapGet, h]
    · by_cases hx : k = x
      · subst hx; simp [mapSet, mapGet, hk]
      · simp [mapSet, mapGet, hk, hx, ih]

@[simp] theorem mapSet_mapSet {β : Type} (l : List (Rune × β)) (r : Rune) (v w : β) :
    mapSet (mapSet l r v) r w = mapSet l r w := by
  induction l with
  | nil => simp [mapSet]
  | cons a l ih =>
    obtain ⟨k, u⟩ := a
    by_cases hk : k = r <;> simp [mapSet, hk, ih]

theorem mem_of_mapGet {β : Type} {l : List (Rune × β)} {r : Rune} {v : β}
    (h : mapGet l r = some v) : (r, v) ∈ l := by
  induction l with
  | nil => simp [mapGet] at h
  | cons a l ih =>
    obtain ⟨k, u⟩ := a
    by_cases hk : k = r
    · subst hk; simp [mapGet] at h; simp [h]
    · simp [mapGet, hk] at h; simp [ih h]

theorem mem_mapSet {β : Type} {l : List (Rune × β)} {r x : Rune} {v c : β}
    (h : (x, c) ∈ mapSet l r v) : (x = r ∧ c = v) ∨ (x, c) ∈ l := by
  induction l with
  | nil => simpa [mapSet] using h
  | cons a l ih =>
    obtain ⟨k, u⟩ := a
    by_cases hk : k = r
    · subst hk
      simp [mapSet] at h
      rcases h with ⟨rfl, rfl⟩ | h
      · exact Or.inl ⟨rfl, rfl⟩
      · exact Or.inr (by simp [h])
    · simp [mapSet, hk] at h
      rcases h with ⟨rfl, rfl⟩ | h
      · exact Or.inr (by simp)
      · rcases ih h with h1 | h1
        · exact Or.inl h1
        · exact Or.inr (by simp [h1])

namespace Node
@[simp] theorem children_mk (f : Fields μ) (cs : List (Rune × Node μ)) : (Node.mk f cs).children = cs := rfl
@[simp] theorem fields_mk (f : Fields μ) (cs : List (Rune × Node μ)) : (Node.mk f cs).fields = f := rfl
@[simp] theorem children_orMask (n : Node μ) (m : Nat) : (n.orMask m).children = n.children := rfl
@[simp] theorem children_setMask (n : Node μ) (m : Nat) : (n.setMask m).children = n.children := rfl
@[simp] theorem children_incTermCount (n : Node μ) : n.incTermCount.children = n.children := rfl
@[simp] theorem children_setEnd (n : Node μ) : n.setEnd.children = n.children := rfl
@[simp] theorem children_setChild (n : Node μ) (r : Rune) (c : Node μ) :
    (n.setChild r c).children = mapSet n.children r c := rfl
@[simp] theorem children_deleteChild (n : Node μ) (r : Rune) :
    (n.deleteChild r).children = mapDelete n.children r := rfl
@[simp] theorem term_orMask (n : Node μ) (m : Nat) : (n.orMask m).term = n.term := rfl
@[simp] theorem term_setMask (n : Node μ) (m : Nat) : (n.setMask m).term = n.term := rfl
@[simp] theorem term_incTermCount (n : Node μ) : n.incTermCount.term = n.term := rfl
@[simp] theorem term_setEnd (n : Node μ) : n.setEnd.term = n.term := rfl
@[simp] theorem term_setChild (n : Node μ) (r : Rune) (c : Node μ) : (n.setChild r c).term = n.term := rfl
@[simp] theorem path_orMask (n : Node μ) (m : Nat) : (n.orMask m).path = n.path := rfl
@[simp] theorem path_setMask (n : Node μ) (m : Nat) : (n.setMask m).path = n.path := rfl
@[simp] theorem path_incTermCount (n : Node μ) : n.incTermCount.path = n.path := rfl
@[simp] theorem path_setEnd (n : Node μ) : n.setEnd.path = n.path := rfl
@[simp] theorem path_setChild (n : Node μ) (r : Rune) (c : Node μ) : (n.setChild r c).path = n.path := rfl
@[simp] theorem end_setChild (n : Node μ) (r : Rune) (c : Node μ) : (n.setChild r c).end_ = n.end_ := rfl
@[simp] theorem end_setEnd (n : Node μ) : n.setEnd.end_ = true := rfl
@[simp] theorem end_orMask (n : Node μ) (m : Nat) : (n.orMask m).end_ = n.end_ := rfl
@[simp] theorem end_incTermCount (n : Node μ) : n.incTermCount.end_ = n.end_ := rfl
end Node

@[simp] theorem children_newNode (p : Node μ) (v : Rune) (k : Key) (b : Nat) (m : Option μ) (t : Bool) :
    (newNode p v k b m t).children = [] := rfl
@[simp] theorem term_newNode (p : Node μ) (v : Rune) (k : Key) (b : Nat) (m : Option μ) (t : Bool) :
    (newNode p v k b m t).term = t := rfl
@[simp] theorem path_newNode (p : Node μ) (v : Rune) (k : Key) (b : Nat) (m : Option μ) (t : Bool) :
    (newNode p v k b m t).path = k := rfl
@[simp] theorem meta_newNode (p : Node μ) (v : Rune) (k : Key) (b : Nat) (m : Option μ) (t : Bool) :
    (newNode p v k b m t).meta = m := rfl
@[simp] theorem end_newNode (p : Node μ) (v : Rune) (k : Key) (b : Nat) (m : Option μ) (t : Bool) :
    (newNode p v k b m t).end_ = false := rfl

theorem Find_eq_findTerm (t : Trie μ) (key : Key) : t.Find key = findTerm t.root key := rfl

theorem findTerm_nil (n : Node μ) :
    findTerm n [] = match mapGet n.children nul with
      | none => none
      | some c => if c.term then some c else none := rfl

theorem findTerm_cons (n : Node μ) (r : Rune) (q : List Rune) :
    findTerm n (r :: q) = match mapGet n.children r with
      | none => none
      | some c => findTerm c q := by
  unfold findTerm
  simp only [findNode]
  cases mapGet n.children r <;> rfl

theorem findTerm_congr {n n1 : Node μ} (h : n.children = n1.children) (q : List Rune) :
    findTerm n q = findTerm n1 q := by
  cases q with
  | nil => rw [findTerm_nil, findTerm_nil, h]
  | cons r q => rw [findTerm_cons, findTerm_cons, h]

theorem findTerm_no_children {n : Node μ} (h : n.children = []) (q : List Rune) :
    findTerm n q = none := by
  cases q with
  | nil => rw [findTerm_nil, h]; rfl
  | cons r q => rw [findTerm_cons, h]; rfl

theorem addLoop_findTerm (key : Key) (meta : Option μ) :
    ∀ (rs : List Rune) (n : Node μ) (q : List Rune), nul ∉ rs → nul ∉ q →
      (q = rs → ∃ s, findTerm (addLoop key meta n rs) q = some s ∧
          s.term = true ∧ s.meta = meta ∧ s.path = key) ∧
      (q ≠ rs → findTerm (addLoop key meta n rs) q = findTerm n q) := by
  intro rs
  induction rs with
  | nil =>
    intro n q _ hq
    constructor
    · rintro rfl
      refine ⟨newNode n nul key 0 meta true, ?_, rfl, rfl, rfl⟩
      simp [addLoop, Node.NewChild, findTerm_nil]
    · intro hne
      cases q with
      | nil => exact absurd rfl hne
      | cons x q =>
        have hx : nul ≠ x := fun h => hq (by simp [h])
        simp [addLoop, Node.NewChild, findTerm_cons, mapGet_mapSet_ne _ _ hx]
  | cons r rest ih =>
    intro n q hrs hq
    have hr : r ≠ nul := fun h => hrs (by simp [h])
    have hrest : nul ∉ rest := fun h => hrs (by simp [h])
    -- the node the loop steps into, after its updates
    obtain ⟨c1, hc1, hadd⟩ : ∃ c1 : Node μ,
        (∀ q1, findTerm c1 q1 = match mapGet n.children r with
              | none => none
              | some c => findTerm c q1) ∧
        (addLoop key meta n (r :: rest)).children =
          mapSet n.children r (addLoop key meta c1 rest) := by
      cases hg : mapGet n.children r with
      | none =>
        refine ⟨if rest = [] then (newNode n r [] (maskruneslice (r :: rest)) none false).incTermCount.setEnd
                else (newNode n r [] (maskruneslice (r :: rest)) none false).incTermCount, ?_, ?_⟩
        · intro q1
          apply findTerm_no_children
          split <;> rfl
        · simp [addLoop, hg, Node.NewChild]
      | some c =>
        refine ⟨if rest = [] then ((c.orMask (maskruneslice (r :: rest))).incTermCount).setEnd
                else (c.orMask (maskruneslice (r :: rest))).incTermCount, ?_, ?_⟩
        · intro q1
          apply findTerm_congr
          split <;> rfl
        · simp [addLoop, hg]
    cases q with
    | nil =>
      refine ⟨fun h => by simp at h, fun _ => ?_⟩
      rw [findTerm_nil, findTerm_nil, hadd, mapGet_mapSet_ne _ _ hr]
    | cons x q =>
      have hq1 : nul ∉ q := fun h => hq (by simp [h])
      by_cases hx : x = r
      · subst hx
        have := ih c1 q hrest hq1
        constructor
        · intro h
          have hqr : q = rest := by simpa using h
          obtain ⟨s, hs, h3⟩ := this.1 hqr
          refine ⟨s, ?_, h3⟩
          rw [findTerm_cons, hadd, mapGet_mapSet_same]; exact hs
        · intro h
          have hqr : q ≠ rest := fun h1 => h (by rw [h1])
          rw [findTerm_cons, hadd, mapGet_mapSet_same, findTerm_cons]
          simp only []
          rw [this.2 hqr, hc1]
      · constructor
        · intro h
          exact absurd (by simpa using congrArg List.head? h) hx
        · intro _
          rw [findTerm_cons, findTerm_cons, hadd, mapGet_mapSet_ne _ _ (Ne.symm hx)]

theorem build_snoc (adds : List (Key × Option μ)) (a : Key × Option μ) :
    build (adds ++ [a]) = (build adds).Add a.1 a.2 := by
  simp [build, List.foldl_append]

theorem Find_New (K : Key) : (New : Trie μ).Find K = none := by
  rw [Find_eq_findTerm]
  exact @findTerm_no_children μ (New : Trie μ).root rfl K

theorem Find_term {t : Trie μ} {K : Key} {n : Node μ} (h : t.Find K = some n) :
    n.term = true := by
  unfold Trie.Find at h
  split at h
  · simp at h
  · split at h
    · simp at h
    · split at h
      · simp at h; subst h; assumption
      · simp at h

theorem Find_Add (t : Trie μ) (key : Key) (meta : Option μ) (K : Key)
    (hkey : nul ∉ key) (hK : nul ∉ K) :
    (K = key → ∃ s, (t.Add key meta).Find K = some s ∧
        s.term = true ∧ s.meta = meta ∧ s.path = key) ∧
    (K ≠ key → (t.Add key meta).Find K = t.Find K) := by
  have h := addLoop_findTerm key meta key
    ((t.root.orMask (maskruneslice key)).incTermCount) K hkey hK
  refine ⟨h.1, fun hne => ?_⟩
  rw [Find_eq_findTerm, Find_eq_findTerm]
  exact (h.2 hne).trans (findTerm_congr (show ((t.root.orMask (maskruneslice key)).incTermCount).children = t.root.children from rfl) K)

/-- After `Add` calls with NUL-free keys, `Find(K)` is found exactly for the
added keys, and the node found carries the metadata of the last `Add(K, M)`. -/
theorem build_find (adds : List (Key × Option μ)) (K : Key)
    (hadds : ∀ a ∈ adds, nul ∉ a.1) (hK : nul ∉ K) :
    (((build adds).Find K).isSome = true ↔ K ∈ adds.map Prod.fst) ∧
    (∀ n, (build adds).Find K = some n →
      ∃ pre M post, adds = pre ++ (K, M) :: post ∧ (∀ a ∈ post, a.1 ≠ K) ∧
        n.meta = M) := by
  induction adds using List.reverseRecOn with
  | nil =>
    have : (build ([] : List (Key × Option μ))).Find K = none := Find_New K
    simp [this]
  | append_singleton l a ih =>
    obtain ⟨key, M0⟩ := a
    have hl : ∀ a ∈ l, nul ∉ a.1 := fun a ha => hadds a (by simp [ha])
    have hkey : nul ∉ key := hadds (key, M0) (by simp)
    have hFA := Find_Add (build l) key M0 K hkey hK
    obtain ⟨ih1, ih2⟩ := ih hl
    rw [build_snoc]
    by_cases hk : K = key
    · obtain ⟨s, hs, _, hm, _⟩ := hFA.1 hk
      simp only [hs]
      refine ⟨by simp [hk], fun n hn => ?_⟩
      refine ⟨l, M0, [], by simp [hk], by simp, ?_⟩
      have : s = n := by simpa using hn
      rw [← this, hm]
    · simp only [hFA.2 hk]
      constructor
      · rw [ih1]; simp [hk]
      · intro n hn
        obtain ⟨pre, M, post, h1, h2, h3⟩ := ih2 n hn
        refine ⟨pre, M, post ++ [(key, M0)], by simp [h1], ?_, h3⟩
        intro a ha
        rcases List.mem_append.1 ha with h | h
        · exact h2 a h
        · have : a = (key, M0) := by simpa using h
          rw [this]; exact fun h => hk h.symm

/-! ## The loops of Filter -/

/-- The inner loop of `Filter` needs no more fuel than `len(chars) - j`: with
that much it stops by its own test `j < len(chars)` or by a `break`. -/
theorem filterInner_fuel (root : Node μ) (chars replace : List Rune) :
    ∀ (fuel j : Nat) (me : Bool) (st : FilterState μ), chars.length - j ≤ fuel →
      filterInner root chars replace fuel j me st =
        filterInner root chars replace (chars.length - j) j me st := by
  intro fuel
  induction fuel with
  | zero =>
    intro j me st h
    have : chars.length - j = 0 := by omega
    rw [this]
  | succ fuel ih =>
    intro j me st h
    cases hc : chars[j]? with
    | none =>
      have hj : chars.length ≤ j := List.getElem?_eq_none_iff.1 hc
      have : chars.length - j = 0 := by omega
      simp only [this, filterInner, hc]
    | some c =>
      have hj : j < chars.length := by
        by_contra hcon
        rw [List.getElem?_eq_none_iff.2 (by omega)] at hc
        simp at hc
      have e : chars.length - j = (chars.length - (j + 1)) + 1 := by omega
      rw [e, filterInner, filterInner, hc]
      simp only []
      cases mapGet st.node.children c with
      | none => rfl
      | some ret =>
        simp only []
        split
        · split
          · exact ih _ _ _ (by omega)
          · exact ih _ _ _ (by omega)
        · exact ih _ _ _ (by omega)

/-- The inner loop never moves `k` backwards. -/
theorem filterInner_k (root : Node μ) (chars replace : List Rune) :
    ∀ (fuel j : Nat) (me : Bool) (st : FilterState μ), st.k ≤ j → (me = true → st.k < j) →
      st.k ≤ (filterInner root chars replace fuel j me st).k := by
  intro fuel
  induction fuel with
  | zero => intro j me st _ _; exact le_refl _
  | succ fuel ih =>
    intro j me st hj hme
    rw [filterInner]
    cases chars[j]? with
    | none => exact le_refl _
    | some c =>
      simp only []
      cases mapGet st.node.children c with
      | none =>
        simp only []
        split
        · rename_i h
          have := hme h
          show st.k ≤ j - 1
          omega
        · exact le_refl _
      | some ret =>
        simp only []
        split
        · split
          · exact le_trans hj (ih (j + 1) true
              { node := ret, hit := true,
                left := appendReplace st.left replace (j + 1 - st.start),
                start := j + 1, k := j } (Nat.le_succ j) (fun _ => Nat.lt_succ_self j))
          · exact ih (j + 1) true { st with node := ret, hit := true }
              (Nat.le_succ_of_le hj) (fun _ => Nat.lt_succ_of_le hj)
        · exact ih (j + 1) me { st with node := ret }
            (Nat.le_succ_of_le hj) (fun _ => Nat.lt_succ_of_le hj)

/-- The outer loop of `Filter`, given `len(chars)` rounds, stops by its own
test `k < len(chars)`: the scan reaches the end of the text. -/
theorem filterOuter_exit (root : Node μ) (chars replace : List Rune) :
    ∀ (fuel : Nat) (st : FilterState μ), chars.length ≤ st.k + fuel →
      chars.length ≤ (filterOuter root chars replace fuel st).k := by
  intro fuel
  induction fuel with
  | zero => intro st h; simpa [filterOuter] using h
  | succ fuel ih =>
    intro st h
    rw [filterOuter]
    split
    · apply ih
      have := filterInner_k root chars replace (chars.length - st.k) st.k false st (le_refl _)
        (fun h => by simp at h)
      simp only []
      omega
    · omega

/-- The inner loop keeps `start ≤ k + 1`; with `k < len(chars)` in the outer
loop this is why the slice expression `chars[start:k+1]` is always in range. -/
theorem filterInner_start (root : Node μ) (chars replace : List Rune) :
    ∀ (fuel j : Nat) (me : Bool) (st : FilterState μ),
      st.start ≤ st.k + 1 → (me = true → 0 < j) →
      (filterInner root chars replace fuel j me st).start ≤
        (filterInner root chars replace fuel j me st).k + 1 := by
  intro fuel
  induction fuel with
  | zero => intro j me st h _; exact h
  | succ fuel ih =>
    intro j me st h hme
    rw [filterInner]
    cases chars[j]? with
    | none => exact h
    | some c =>
      simp only []
      cases mapGet st.node.children c with
      | none =>
        simp only []
        split
        · rename_i hm
          have := hme hm
          show j ≤ j - 1 + 1
          omega
        · exact le_refl _
      | some ret =>
        simp only []
        split
        · split
          · exact ih (j + 1) true
              { node := ret, hit := true,
                left := appendReplace st.left replace (j + 1 - st.start),
                start := j + 1, k := j } (le_refl _) (fun _ => Nat.succ_pos j)
          · exact ih (j + 1) true { st with node := ret, hit := true } h
              (fun _ => Nat.succ_pos j)
        · exact ih (j + 1) me { st with node := ret } h (fun _ => Nat.succ_pos j)

theorem addLoop_end (key : Key) (meta : Option μ) (n : Node μ) (rs : List Rune) :
    (addLoop key meta n rs).end_ = n.end_ := by
  cases rs with
  | nil => rfl
  | cons r rest =>
    simp only [addLoop]
    cases mapGet n.children r <;> rfl

theorem addLoop_chain (key : Key) (meta : Option μ) :
    ∀ (rs : List Rune) (n : Node μ), n.children = [] → Chain rs (addLoop key meta n rs) := by
  intro rs
  induction rs with
  | nil => intro n _; trivial
  | cons r rest ih =>
    intro n hn
    have hg : mapGet n.children r = none := by rw [hn]; rfl
    refine ⟨addLoop key meta
      (if rest = [] then
        (newNode n r [] (maskruneslice (r :: rest)) none false).incTermCount.setEnd
       else (newNode n r [] (maskruneslice (r :: rest)) none false).incTermCount) rest,
      ?_, ?_, ?_⟩
    · simp only [addLoop, hg]
      simp [Node.NewChild, hn, mapSet]
    · rw [addLoop_end]
      split <;> simp [*]
    · apply ih
      split <;> rfl

theorem appendReplace_eq (left R : List Rune) (n : Nat) :
    appendReplace left R n = left ++ (List.replicate n R).flatten := by
  induction n generalizing left with
  | zero => simp [appendReplace]
  | succ n ih => simp [appendReplace, ih, List.replicate_succ]

/-- A scan that starts inside a chain and meets a code point that leaves it
before the chain is complete: the literal span up to `k` is copied. -/
theorem filterInner_mismatch (root : Node μ) (replace : List Rune) :
    ∀ (v pre s : List Rune) (fuel : Nat) (st : FilterState μ),
      Chain v st.node → ¬ v <+: s → v.length ≤ s.length → s.length ≤ fuel →
      filterInner root (pre ++ s) replace fuel pre.length false st =
        { node := root, start := st.k + 1,
          left := st.left ++ slice (pre ++ s) st.start (st.k + 1),
          hit := st.hit, k := st.k } := by
  intro v
  induction v with
  | nil => intro pre s fuel st _ h; exact absurd (List.nil_prefix) h
  | cons c v ih =>
    intro pre s fuel st hch hnp hlen hfuel
    obtain ⟨n1, hc, he, hch1⟩ := hch
    cases s with
    | nil => simp at hlen
    | cons x s =>
      cases fuel with
      | zero => simp at hfuel
      | succ fuel =>
        have hget : (pre ++ x :: s)[pre.length]? = some x := by
          rw [List.getElem?_append_right (le_refl _)]; simp
        by_cases hx : c = x
        · subst hx
          have hv : v ≠ [] := by
            rintro rfl
            exact hnp (by simp)
          have hnp1 : ¬ v <+: s := fun h => hnp (by simpa using h)
          have hrec := ih (pre ++ [c]) s fuel { st with node := n1 } hch1 hnp1
            (by simpa using hlen) (by simpa using hfuel)
          simp only [List.append_assoc, List.singleton_append, List.length_append,
            List.length_singleton] at hrec
          rw [filterInner]
          simp only [hget, hc, mapGet, if_true, he, hv, decide_False]
          simpa using hrec
        · rw [filterInner]
          simp [hget, hc, mapGet, hx]

/-- A scan that starts inside a chain and reads exactly the rest of the chain
up to the end of the text: the whole span from `start` is replaced. -/
theorem filterInner_match_at_end (root : Node μ) (replace : List Rune) :
    ∀ (v pre : List Rune) (fuel : Nat) (me : Bool) (st : FilterState μ),
      Chain v st.node → v ≠ [] → v.length ≤ fuel →
      ∃ nd, filterInner root (pre ++ v) replace fuel pre.length me st =
        { node := nd, start := (pre ++ v).length,
          left := appendReplace st.left replace ((pre ++ v).length - st.start),
          hit := true, k := (pre ++ v).length - 1 } := by
  intro v
  induction v with
  | nil => intro pre fuel me st _ h; exact absurd rfl h
  | cons c v ih =>
    intro pre fuel me st hch _ hfuel
    obtain ⟨n1, hc, he, hch1⟩ := hch
    cases fuel with
    | zero => simp at hfuel
    | succ fuel =>
      have hget : (pre ++ c :: v)[pre.length]? = some c := by
        rw [List.getElem?_append_right (le_refl _)]; simp
      by_cases hv : v = []
      · subst hv
        refine ⟨n1, ?_⟩
        rw [filterInner]
        simp only [hget, hc, mapGet, if_true, he, decide_True]
        have hj : pre.length = (pre ++ [c]).length - 1 := by simp
        rw [if_pos hj]
        have hnone : (pre ++ [c])[pre.length + 1]? = none := by simp
        cases fuel with
        | zero => simp [filterInner]
        | succ fuel => rw [filterInner]; simp [hnone]
      · have hrec := ih (pre ++ [c]) fuel
        simp only [List.append_assoc, List.singleton_append, List.length_append,
          List.length_singleton] at hrec
        have hj : ¬ pre.length = (pre ++ c :: v).length - 1 := by
          have : 0 < v.length := List.length_pos.2 hv
          simp only [List.length_append, List.length_cons]; omega
        obtain ⟨nd, hnd⟩ := hrec me { st with node := n1 } hch1 hv
          (by simpa using hfuel)
        refine ⟨nd, ?_⟩
        rw [filterInner]
        simp only [hget, hc, mapGet, if_true, he, hv, decide_False]
        simp only [Bool.false_eq_true, if_false, if_neg hj]
        simpa using hnd

theorem filterOuter_done (root : Node μ) (chars replace : List Rune) (fuel : Nat)
    (st : FilterState μ) (h : chars.length ≤ st.k) :
    filterOuter root chars replace fuel st = st := by
  cases fuel with
  | zero => rfl
  | succ fuel => rw [filterOuter, if_neg (by omega)]

/-- "`w` occurs in `p ++ w` only as the final suffix", read position by
position: no occurrence starts before position `len(p)`. -/
theorem no_early_occurrence {w p : List Rune}
    (honly : ∀ a b, p ++ w = a ++ w ++ b → b = []) :
    ∀ k, k < p.length → ¬ w <+: (p ++ w).drop k := by
  intro k hk hpre
  obtain ⟨b, hb⟩ := hpre
  have h1 : p ++ w = (p ++ w).take k ++ w ++ b := by
    rw [List.append_assoc, hb, List.take_append_drop]
  have hb0 := honly _ _ h1
  subst hb0
  have h2 := congrArg List.length hb
  simp at h2
  omega

theorem only_suffix_of_no_early {w p : List Rune}
    (h : ∀ k, k < p.length → ¬ w <+: (p ++ w).drop k) :
    ∀ a b, p ++ w = a ++ w ++ b → b = [] := by
  intro a b hab
  have hlen := congrArg List.length hab
  simp at hlen
  by_cases hk : a.length < p.length
  · exfalso
    apply h a.length hk
    rw [hab, List.append_assoc, List.drop_left]
    exact List.prefix_append _ _
  · exact List.length_eq_zero.1 (by omega)

theorem filterOuter_suffix_word (root : Node μ) (w p R : List Rune) (hch : Chain w root)
    (hw : w ≠ []) (hno : ∀ k, k < p.length → ¬ w <+: (p ++ w).drop k) :
    ∀ (n k fuel : Nat), k + n = p.length → w.length + n ≤ fuel →
      (filterOuter root (p ++ w) R fuel
          { node := root, start := k, left := p.take k, hit := false, k := k }).left
        = appendReplace p R w.length ∧
      (filterOuter root (p ++ w) R fuel
          { node := root, start := k, left := p.take k, hit := false, k := k }).hit = true := by
  intro n
  have hwl : 0 < w.length := List.length_pos.2 hw
  induction n with
  | zero =>
    intro k fuel hk hfuel
    have hk : k = p.length := by omega
    subst hk
    cases fuel with
    | zero => omega
    | succ fuel =>
      obtain ⟨nd, hnd⟩ := filterInner_match_at_end root R w p w.length false
        { node := root, start := p.length, left := p.take p.length, hit := false,
          k := p.length } hch hw (le_refl _)
      rw [filterOuter]
      simp only [List.length_append]
      rw [if_pos (by omega)]
      have e : p.length + w.length - p.length = w.length := by omega
      rw [e, hnd, filterOuter_done _ _ _ _ _ (by simp; omega)]
      simp [e]
  | succ n ih =>
    intro k fuel hk hfuel
    have hkp : k < p.length := by omega
    cases fuel with
    | zero => omega
    | succ fuel =>
      have hsplit : p ++ w = (p ++ w).take k ++ (p ++ w).drop k := (List.take_append_drop _ _).symm
      have hprelen : ((p ++ w).take k).length = k := by
        simp; omega
      have hin := filterInner_mismatch root R w ((p ++ w).take k) ((p ++ w).drop k)
        ((p ++ w).length - k)
        { node := root, start := k, left := p.take k, hit := false, k := k } hch
        (hno k hkp) (by simp; omega) (by simp)
      rw [← hsplit, hprelen] at hin
      have hrec := ih (k + 1) fuel (by omega) (by omega)
      rw [filterOuter]
      simp only []
      rw [if_pos (by simp; omega), hin]
      have hleft : p.take k ++ slice (p ++ w) k (k + 1) = p.take (k + 1) := by
        unfold slice
        rw [List.drop_append_of_le_length (by omega), List.take_append_of_le_length (by simp; omega),
          List.take_add]
        simp
      simp only [hleft]
      exact hrec

/-! ## Reachable nodes, collect and the tries built by Add -/

theorem reachBy_nil {n m : Node μ} (h : ReachBy n [] m) : m = n := by
  cases h; rfl

theorem reachBy_cons {n m : Node μ} {r : Rune} {s : List Rune} (h : ReachBy n (r :: s) m) :
    ∃ c, (r, c) ∈ n.children ∧ ReachBy c s m := by
  cases h with
  | step hc hr => exact ⟨_, hc, hr⟩

theorem reachBy_append {n x m : Node μ} {a b : List Rune}
    (h1 : ReachBy n a x) (h2 : ReachBy x b m) : ReachBy n (a ++ b) m := by
  induction h1 with
  | here _ => exact h2
  | step hc _ ih => exact ReachBy.step hc (ih h2)

theorem reachBy_of_findNode : ∀ (s : List Rune) (n m : Node μ),
    findNode n s = some m → ReachBy n s m := by
  intro s
  induction s with
  | nil => intro n m h; simp [findNode] at h; subst h; exact ReachBy.here _
  | cons r s ih =>
    intro n m h
    rw [findNode] at h
    cases hg : mapGet n.children r with
    | none => rw [hg] at h; simp at h
    | some c =>
      rw [hg] at h
      exact ReachBy.step (mem_of_mapGet hg) (ih c m h)

theorem findNode_append : ∀ (a b : List Rune) (n : Node μ),
    findNode n (a ++ b) = (findNode n a).bind (fun x => findNode x b) := by
  intro a
  induction a with
  | nil => intro b n; rfl
  | cons r a ih =>
    intro b n
    simp only [List.cons_append, findNode]
    cases mapGet n.children r with
    | none => rfl
    | some c => exact ih b c

theorem count_eq (n : Node μ) : n.count = 1 + countList n.children := by
  cases n with
  | mk f cs => simp [Node.count]

theorem countStack_append (a b : List (Node μ)) :
    countStack (a ++ b) = countStack a + countStack b := by
  induction a with
  | nil => simp [countStack]
  | cons x a ih => simp [countStack, ih, Nat.add_assoc]

theorem countStack_reverse (a : List (Node μ)) : countStack a.reverse = countStack a := by
  induction a with
  | nil => rfl
  | cons x a ih => simp [countStack, countStack_append, ih, Nat.add_comm]

theorem countStack_children (cs : List (Rune × Node μ)) :
    countStack (cs.map Prod.snd) = countList cs := by
  induction cs with
  | nil => rfl
  | cons x cs ih =>
    obtain ⟨r, c⟩ := x
    simp [countStack, countList, ih]

/-- With fuel for every node in and below the work list, the loop of
`collect` ends with an empty work list, and the keys it returns are the keys it
started with and the `path` of every terminal node in or below the work list. -/
theorem collectLoop_spec : ∀ (fuel : Nat) (nodes : List (Node μ)) (keys : List Key),
    countStack nodes ≤ fuel →
    (collectLoop fuel nodes keys).1 = [] ∧
    ∀ K, K ∈ (collectLoop fuel nodes keys).2 ↔
      K ∈ keys ∨ ∃ n ∈ nodes, ∃ s m, ReachBy n s m ∧ m.term = true ∧ m.path = K := by
  intro fuel
  induction fuel with
  | zero =>
    intro nodes keys h
    cases nodes with
    | nil => simp [collectLoop]
    | cons n nodes =>
      have := count_eq n
      simp [countStack] at h
      omega
  | succ fuel ih =>
    intro nodes keys h
    cases nodes with
    | nil => simp [collectLoop]
    | cons n nodes =>
      have hc : countStack ((n.children.map Prod.snd).reverse ++ nodes) ≤ fuel := by
        rw [countStack_append, countStack_reverse, countStack_children]
        have := count_eq n
        simp only [countStack] at h
        omega
      obtain ⟨h1, h2⟩ := ih ((n.children.map Prod.snd).reverse ++ nodes)
        (if n.term then keys ++ [n.path] else keys) hc
      rw [collectLoop]
      refine ⟨h1, fun K => ?_⟩
      rw [h2]
      constructor
      · rintro (hk | ⟨x, hx, s, m, hr, hm⟩)
        · by_cases ht : n.term = true
          · rw [if_pos ht] at hk
            rcases List.mem_append.1 hk with hk | hk
            · exact Or.inl hk
            · have : K = n.path := by simpa using hk
              exact Or.inr ⟨n, by simp, [], n, ReachBy.here n, ht, this.symm⟩
          · rw [if_neg ht] at hk; exact Or.inl hk
        · rcases List.mem_append.1 hx with hx | hx
          · obtain ⟨⟨r, c⟩, hrc, rfl⟩ := List.mem_map.1 (List.mem_reverse.1 hx)
            exact Or.inr ⟨n, by simp, r :: s, m, ReachBy.step hrc hr, hm⟩
          · exact Or.inr ⟨x, by simp [hx], s, m, hr, hm⟩
      · rintro (hk | ⟨x, hx, s, m, hr, hm⟩)
        · left; split
          · exact List.mem_append.2 (Or.inl hk)
          · exact hk
        · rcases List.mem_cons.1 hx with rfl | hx
          · cases s with
            | nil =>
              have := reachBy_nil hr
              subst this
              left
              rw [if_pos hm.1]
              simp [hm.2]
            | cons r s =>
              obtain ⟨c, hc1, hc2⟩ := reachBy_cons hr
              right
              refine ⟨c, ?_, s, m, hc2, hm⟩
              apply List.mem_append.2; left
              exact List.mem_reverse.2 (List.mem_map.2 ⟨(r, c), hc1, rfl⟩)
          · right
            exact ⟨x, List.mem_append.2 (Or.inr hx), s, m, hr, hm⟩

/-- On a node with at least one child, `collect` returns, and it returns as a
set the `path` of every terminal node in or below the node; the slice is nil
exactly when there is none. -/
theorem collect_spec (node : Node μ) (h : node.children ≠ []) :
    ∃ r, collect node = some r ∧
      (∀ K, K ∈ r.getD [] ↔ ∃ s m, ReachBy node s m ∧ m.term = true ∧ m.path = K) ∧
      (r = none ↔ ∀ K, ¬ ∃ s m, ReachBy node s m ∧ m.term = true ∧ m.path = K) := by
  have hspec := (collectLoop_spec node.count [node] [] (by simp [countStack])).2
  have hlen : ¬ node.children.length = 0 := fun h0 => h (List.length_eq_zero.1 h0)
  unfold collect
  rw [if_neg hlen]
  cases hl : (collectLoop node.count [node] []).2 with
  | nil =>
    rw [hl] at hspec
    refine ⟨none, rfl, fun K => ?_, ?_⟩
    · have := hspec K
      simpa using this
    · simp only [true_iff]
      intro K hK
      have := (hspec K).2 (Or.inr ⟨node, by simp, hK⟩)
      simp at this
  | cons k ks =>
    rw [hl] at hspec
    refine ⟨some (k :: ks), rfl, fun K => ?_, ?_⟩
    · have := hspec K
      simpa using this
    · simp only [false_iff, reduceCtorEq]
      intro hall
      have := (hspec k).1 (by simp)
      simp at this
      exact hall k this

theorem reachBy_no_children {n m : Node μ} {s : List Rune} (hn : n.children = [])
    (h : ReachBy n s m) : s = [] ∧ m = n := by
  cases h with
  | here => exact ⟨rfl, rfl⟩
  | step hc _ => rw [hn] at hc; simp at hc

/-- Reaching from a node that differs from `n` only in fields other than
`term`, `path` and `children`. -/
theorem reachBy_congr {n n1 m : Node μ} {s : List Rune} (h : ReachBy n1 s m)
    (hc : n1.children = n.children) (ht : n1.term = n.term) (hp : n1.path = n.path) :
    ∃ m0, ReachBy n s m0 ∧ m0.term = m.term ∧ m0.path = m.path := by
  cases h with
  | here => exact ⟨n, ReachBy.here n, ht.symm, hp.symm⟩
  | step hmem hr => exact ⟨m, ReachBy.step (hc ▸ hmem) hr, rfl, rfl⟩

/-- What can be reached after the loop of `Add`: what could be reached before
(same `term` and `path`), a new ordinary node on the path of the key, or the
new terminal node below the end of the path. -/
theorem addLoop_reach (key : Key) (meta : Option μ) :
    ∀ (rs : List Rune) (n m : Node μ) (s : List Rune),
      ReachBy (addLoop key meta n rs) s m →
        (∃ m0, ReachBy n s m0 ∧ m0.term = m.term ∧ m0.path = m.path) ∨
        (s <+: rs ∧ m.term = false) ∨
        (s = rs ++ [nul] ∧ m.term = true ∧ m.path = key) := by
  intro rs
  induction rs with
  | nil =>
    intro n m s h
    cases h with
    | here => exact Or.inl ⟨n, ReachBy.here n, rfl, rfl⟩
    | step hmem hr =>
      simp only [addLoop, Node.NewChild, Node.children_mk] at hmem
      rcases mem_mapSet hmem with ⟨rfl, rfl⟩ | hold
      · obtain ⟨rfl, rfl⟩ := reachBy_no_children (children_newNode _ _ _ _ _ _) hr
        exact Or.inr (Or.inr ⟨rfl, rfl, rfl⟩)
      · exact Or.inl ⟨m, ReachBy.step hold hr, rfl, rfl⟩
  | cons r rest ih =>
    intro n m s h
    cases h with
    | here =>
      left
      refine ⟨n, ReachBy.here n, ?_, ?_⟩
      · simp only [addLoop]; cases mapGet n.children r <;> rfl
      · simp only [addLoop]; cases mapGet n.children r <;> rfl
    | @step _ c _ x s1 hmem hr =>
      cases hg : mapGet n.children r with
      | none =>
        simp only [addLoop, hg, Node.NewChild, Node.children_setChild, Node.children_mk,
          mapSet_mapSet] at hmem
        rcases mem_mapSet hmem with ⟨rfl, rfl⟩ | hold
        · rcases ih _ _ _ hr with ⟨m0, h0, ht, hp⟩ | ⟨hpre, ht⟩ | ⟨rfl, ht, hp⟩
          · have hch : (if rest = [] then
                (newNode n x [] (maskruneslice (x :: rest)) none false).incTermCount.setEnd
                else (newNode n x [] (maskruneslice (x :: rest)) none false).incTermCount).children
                  = [] := by split <;> rfl
            obtain ⟨rfl, rfl⟩ := reachBy_no_children hch h0
            right; left
            refine ⟨by simp, ?_⟩
            rw [← ht]; split <;> rfl
          · exact Or.inr (Or.inl ⟨by simpa using hpre, ht⟩)
          · exact Or.inr (Or.inr ⟨rfl, ht, hp⟩)
        · exact Or.inl ⟨m, ReachBy.step hold hr, rfl, rfl⟩
      | some c0 =>
        simp only [addLoop, hg, Node.children_setChild] at hmem
        rcases mem_mapSet hmem with ⟨rfl, rfl⟩ | hold
        · rcases ih _ _ _ hr with ⟨m0, h0, ht, hp⟩ | ⟨hpre, ht⟩ | ⟨rfl, ht, hp⟩
          · left
            have hcg : ∃ m1, ReachBy c0 s1 m1 ∧ m1.term = m0.term ∧ m1.path = m0.path := by
              apply reachBy_congr h0
              · split <;> rfl
              · split <;> rfl
              · split <;> rfl
            obtain ⟨m1, h1, ht1, hp1⟩ := hcg
            exact ⟨m1, ReachBy.step (mem_of_mapGet hg) h1, ht1.trans ht, hp1.trans hp⟩
          · exact Or.inr (Or.inl ⟨by simpa using hpre, ht⟩)
          · exact Or.inr (Or.inr ⟨rfl, ht, hp⟩)
        · exact Or.inl ⟨m, ReachBy.step hold hr, rfl, rfl⟩

/-- Every node of a trie built by `Add` calls is the root, an ordinary node on
the path of an added key, or the terminal node of an added key. -/
theorem build_reach (adds : List (Key × Option μ)) :
    ∀ (s : List Rune) (m : Node μ), ReachBy (build adds).root s m →
      (s = [] ∧ m.term = false) ∨
      ∃ K ∈ adds.map Prod.fst,
        (s <+: K ∧ m.term = false) ∨ (s = K ++ [nul] ∧ m.term = true ∧ m.path = K) := by
  induction adds using List.reverseRecOn with
  | nil =>
    intro s m h
    obtain ⟨rfl, rfl⟩ := @reachBy_no_children μ (New : Trie μ).root _ _ rfl h
    exact Or.inl ⟨rfl, rfl⟩
  | append_singleton l a ih =>
    obtain ⟨key, M0⟩ := a
    intro s m h
    rw [build_snoc] at h
    rcases addLoop_reach key M0 key _ m s h with ⟨m0, h0, ht, hp⟩ | ⟨hpre, ht⟩ | ⟨rfl, ht, hp⟩
    · obtain ⟨m1, h1, ht1, hp1⟩ := @reachBy_congr μ (build l).root _ _ _ h0 rfl rfl rfl
      rcases ih s m1 h1 with ⟨hs, htm⟩ | ⟨K, hK, hcase⟩
      · exact Or.inl ⟨hs, by rw [← ht, ← ht1]; exact htm⟩
      · right
        refine ⟨K, by simp at hK ⊢; exact Or.inl hK, ?_⟩
        rcases hcase with ⟨h2, h3⟩ | ⟨h2, h3, h4⟩
        · exact Or.inl ⟨h2, by rw [← ht, ← ht1]; exact h3⟩
        · exact Or.inr ⟨h2, by rw [← ht, ← ht1]; exact h3, by rw [← hp, ← hp1]; exact h4⟩
    · exact Or.inr ⟨key, by simp, Or.inl ⟨hpre, ht⟩⟩
    · exact Or.inr ⟨key, by simp, Or.inr ⟨rfl, ht, hp⟩⟩

theorem find_some_iff (t : Trie μ) (K : Key) (n : Node μ) :
    t.Find K = some n ↔
      ∃ node, findNode t.root K = some node ∧ mapGet node.children nul = some n ∧
        n.term = true := by
  unfold Trie.Find
  cases hf : findNode t.root K with
  | none => simp
  | some node =>
    simp only [Option.some.injEq, exists_eq_left']
    cases hg : mapGet node.children nul with
    | none => simp
    | some c =>
      simp only [Option.some.injEq]
      by_cases hc : c.term = true
      · rw [if_pos hc]
        constructor
        · intro h
          have := Option.some.inj h
          subst this
          exact ⟨rfl, hc⟩
        · rintro ⟨rfl, _⟩; rfl
      · rw [if_neg hc]
        constructor
        · intro h; simp at h
        · rintro ⟨rfl, h⟩; exact absurd h hc

/-- An added key is stored: below the end of its path there is a terminal
node under `nul` whose `path` is the key. -/
theorem build_terminal (adds : List (Key × Option μ)) (hadds : ∀ a ∈ adds, nul ∉ a.1)
    (K : Key) (hK : K ∈ adds.map Prod.fst) :
    ∃ m, findNode (build adds).root (K ++ [nul]) = some m ∧ m.term = true ∧ m.path = K := by
  have hKn : nul ∉ K := by
    obtain ⟨a, ha, rfl⟩ := List.mem_map.1 hK
    exact hadds a ha
  have hfound := (build_find adds K hadds hKn).1.2 hK
  obtain ⟨n, hn⟩ := Option.isSome_iff_exists.1 hfound
  obtain ⟨node, h1, h2, h3⟩ := (find_some_iff _ _ _).1 hn
  have hf : findNode (build adds).root (K ++ [nul]) = some n := by
    rw [findNode_append, h1]
    simp [findNode, h2]
  refine ⟨n, hf, h3, ?_⟩
  rcases build_reach adds _ _ (reachBy_of_findNode _ _ _ hf) with ⟨hs, _⟩ | ⟨K1, _, hc⟩
  · simp at hs
  · rcases hc with ⟨_, ht⟩ | ⟨hs, _, hp⟩
    · rw [h3] at ht; simp at ht
    · have : K = K1 := List.append_cancel_right hs
      rw [this]; exact hp

theorem filterOuter_no_start (root : Node μ) (text R : List Rune)
    (h : ∀ c ∈ text, mapGet root.children c = none) :
    ∀ (n k fuel : Nat) (hit : Bool), k + n = text.length → n ≤ fuel →
      (filterOuter root text R fuel
          { node := root, start := k, left := text.take k, hit := hit, k := k }).left = text ∧
      (filterOuter root text R fuel
          { node := root, start := k, left := text.take k, hit := hit, k := k }).hit = hit := by
  intro n
  induction n with
  | zero =>
    intro k fuel hit hk _
    have hk : k = text.length := by omega
    subst hk
    rw [filterOuter_done _ _ _ _ _ (le_refl _)]
    simp
  | succ n ih =>
    intro k fuel hit hk hfuel
    have hkl : k < text.length := by omega
    cases fuel with
    | zero => omega
    | succ fuel =>
      have hget : text[k]? = some text[k] := List.getElem?_eq_getElem hkl
      have hnone : mapGet root.children text[k] = none := h _ (List.getElem_mem _)
      have hin : filterInner root text R (text.length - k) k false
          { node := root, start := k, left := text.take k, hit := hit, k := k } =
          { node := root, start := k + 1, left := text.take k ++ slice text k (k + 1),
            hit := hit, k := k } := by
        have e : text.length - k = (text.length - k - 1) + 1 := by omega
        rw [e, filterInner]
        simp [hget, hnone]
      have hleft : text.take k ++ slice text k (k + 1) = text.take (k + 1) := by
        unfold slice
        rw [List.take_add]
        simp
      rw [filterOuter, if_pos hkl, hin]
      simp only [hleft]
      exact ih (k + 1) fuel hit (by omega) (by omega)

theorem sortByKeys_perm (keys : List Key) : (sortByKeys keys).Perm keys :=
  List.perm_insertionSort _ keys

theorem sortByKeys_sorted (keys : List Key) :
    (sortByKeys keys).Pairwise (fun a b => byteLen a ≤ byteLen b) := by
  haveI : IsTotal Key (fun a b => ByKeys.Less b a = false) :=
    ⟨fun a b => by simp only [ByKeys.Less, decide_eq_false_iff_not]; omega⟩
  haveI : IsTrans Key (fun a b => ByKeys.Less b a = false) :=
    ⟨fun a b c => by simp only [ByKeys.Less, decide_eq_false_iff_not]; omega⟩
  have h := List.sorted_insertionSort (fun a b : Key => ByKeys.Less b a = false) keys
  refine List.Pairwise.imp ?_ h
  intro a b hab
  simp only [ByKeys.Less, decide_eq_false_iff_not] at hab
  omega

/-! ## Bit sets -/

theorem maskIncl_refl (a : Nat) : maskIncl a a := Nat.and_self a

theorem maskIncl_zero (a : Nat) : maskIncl a 0 := Nat.and_zero a

theorem maskIncl_trans {a b c : Nat} (h1 : maskIncl a b) (h2 : maskIncl b c) :
    maskIncl a c := by
  unfold maskIncl at *
  rw [← h2, ← Nat.and_assoc, h1]

theorem maskIncl_or_left (a b : Nat) : maskIncl (a ||| b) a := by
  apply Nat.eq_of_testBit_eq
  intro i
  simp only [Nat.testBit_and, Nat.testBit_or]
  cases a.testBit i <;> cases b.testBit i <;> rfl

theorem maskIncl_or_right (a b : Nat) : maskIncl (a ||| b) b := by
  rw [Nat.or_comm]; exact maskIncl_or_left b a

theorem maskIncl_or {a b c : Nat} (h1 : maskIncl a b) (h2 : maskIncl a c) :
    maskIncl a (b ||| c) := by
  unfold maskIncl at *
  rw [Nat.and_or_distrib_left, h1, h2]

theorem or_eq_of_maskIncl {a b : Nat} (h : maskIncl a b) : a ||| b = a := by
  unfold maskIncl at h
  rw [← h]
  apply Nat.eq_of_testBit_eq
  intro i
  simp only [Nat.testBit_and, Nat.testBit_or]
  cases a.testBit i <;> cases b.testBit i <;> rfl

theorem maskBit_nul : maskBit nul = 0 := by decide

theorem foldl_mask_init (l : List Rune) (init : Nat) :
    l.foldl (fun m r => m ||| maskBit r) init =
      init ||| l.foldl (fun m r => m ||| maskBit r) 0 := by
  induction l generalizing init with
  | nil => simp
  | cons r l ih =>
    simp only [List.foldl_cons, Nat.zero_or]
    rw [ih (init ||| maskBit r), ih (maskBit r), Nat.or_assoc]

theorem maskruneslice_cons (r : Rune) (rest : List Rune) :
    maskruneslice (r :: rest) = maskBit r ||| maskruneslice rest := by
  unfold maskruneslice
  rw [List.foldl_cons, foldl_mask_init, Nat.zero_or]

theorem maskruneslice_nil : maskruneslice [] = 0 := rfl

/-- The mask of a slice is held by `M` exactly when every bit of it is. -/
theorem maskIncl_maskruneslice {M : Nat} {l : List Rune} :
    maskIncl M (maskruneslice l) ↔ ∀ r ∈ l, maskIncl M (maskBit r) := by
  induction l with
  | nil => simp [maskruneslice_nil, maskIncl_zero]
  | cons r l ih =>
    rw [maskruneslice_cons]
    constructor
    · intro h x hx
      rcases List.mem_cons.1 hx with rfl | hx
      · exact maskIncl_trans h (maskIncl_or_left _ _)
      · exact ih.1 (maskIncl_trans h (maskIncl_or_right _ _)) x hx
    · intro h
      exact maskIncl_or (h r (by simp)) (ih.2 (fun x hx => h x (by simp [hx])))

/-! ## The facts kept by Add -/

namespace Node
@[simp] theorem val_orMask (n : Node μ) (m : Nat) : (n.orMask m).val = n.val := rfl
@[simp] theorem val_setMask (n : Node μ) (m : Nat) : (n.setMask m).val = n.val := rfl
@[simp] theorem val_incTermCount (n : Node μ) : n.incTermCount.val = n.val := rfl
@[simp] theorem val_setEnd (n : Node μ) : n.setEnd.val = n.val := rfl
@[simp] theorem val_setChild (n : Node μ) (r : Rune) (c : Node μ) : (n.setChild r c).val = n.val := rfl
@[simp] theorem val_deleteChild (n : Node μ) (r : Rune) : (n.deleteChild r).val = n.val := rfl
@[simp] theorem mask_orMask (n : Node μ) (m : Nat) : (n.orMask m).mask = n.mask ||| m := rfl
@[simp] theorem mask_setMask (n : Node μ) (m : Nat) : (n.setMask m).mask = m := rfl
@[simp] theorem mask_incTermCount (n : Node μ) : n.incTermCount.mask = n.mask := rfl
@[simp] theorem mask_setEnd (n : Node μ) : n.setEnd.mask = n.mask := rfl
@[simp] theorem mask_setChild (n : Node μ) (r : Rune) (c : Node μ) : (n.setChild r c).mask = n.mask := rfl
@[simp] theorem mask_deleteChild (n : Node μ) (r : Rune) : (n.deleteChild r).mask = n.mask := rfl
end Node

@[simp] theorem val_newNode (p : Node μ) (v : Rune) (k : Key) (b : Nat) (m : Option μ) (t : Bool) :
    (newNode p v k b m t).val = v := rfl
@[simp] theorem mask_newNode (p : Node μ) (v : Rune) (k : Key) (b : Nat) (m : Option μ) (t : Bool) :
    (newNode p v k b m t).mask = b := rfl

theorem mapSet_ne_nil {β : Type} (l : List (Rune × β)) (r : Rune) (v : β) : mapSet l r v ≠ [] := by
  cases l with
  | nil => simp [mapSet]
  | cons a l =>
    obtain ⟨k, w⟩ := a
    by_cases h : k = r <;> simp [mapSet, h]

theorem Good.localOK {n : Node μ} (h : Good n) : LocalOK n := by
  cases h with
  | mk _ hl _ => exact hl

theorem Good.child {n c : Node μ} {r : Rune} (h : Good n) (hc : (r, c) ∈ n.children) : Good c := by
  cases h with
  | mk _ _ hch => exact hch r c hc

/-- A node keeps `Good` when only its mask grows and its `termCount` and
`end` change. -/
theorem Good.update {n n1 : Node μ} (h : Good n) (hc : n1.children = n.children)
    (hv : n1.val = n.val) (hm : maskIncl n1.mask n.mask) : Good n1 := by
  refine Good.mk n1 ⟨?_, ?_⟩ ?_
  · rw [hv]; exact maskIncl_trans hm h.localOK.1
  · intro r c hrc
    rw [hc] at hrc
    obtain ⟨h1, h2, h3⟩ := h.localOK.2 r c hrc
    exact ⟨maskIncl_trans hm h1, h2, h3⟩
  · intro r c hrc
    rw [hc] at hrc
    exact h.child hrc

theorem addLoop_val (key : Key) (meta : Option μ) (n : Node μ) (rs : List Rune) :
    (addLoop key meta n rs).val = n.val := by
  cases rs with
  | nil => rfl
  | cons r rest =>
    simp only [addLoop]
    cases mapGet n.children r <;> rfl

theorem addLoop_children_ne (key : Key) (meta : Option μ) (n : Node μ) (rs : List Rune) :
    (addLoop key meta n rs).children ≠ [] := by
  cases rs with
  | nil => exact mapSet_ne_nil _ _ _
  | cons r rest =>
    simp only [addLoop, Node.children_setChild]
    exact mapSet_ne_nil _ _ _

theorem addLoop_mask (key : Key) (meta : Option μ) (n : Node μ) (rs : List Rune)
    (h : maskIncl n.mask (maskruneslice rs)) : (addLoop key meta n rs).mask = n.mask := by
  cases rs with
  | nil => exact Nat.or_zero _
  | cons r rest =>
    simp only [addLoop]
    cases mapGet n.children r with
    | none => exact or_eq_of_maskIncl h
    | some c => rfl

/-- The loop of `Add` keeps `Good`, from a node whose mask already holds the
mask of the code points still to be read. -/
theorem addLoop_good (key : Key) (meta : Option μ) :
    ∀ (rs : List Rune) (n : Node μ), Good n → maskIncl n.mask (maskruneslice rs) →
      Good (addLoop key meta n rs) := by
  intro rs
  induction rs with
  | nil =>
    intro n hn _
    have hl := hn.localOK
    refine Good.mk _ ⟨?_, ?_⟩ ?_
    · show maskIncl (n.mask ||| 0) (maskBit n.val)
      rw [Nat.or_zero]; exact hl.1
    · intro r c hrc
      show maskIncl (n.mask ||| 0) c.mask ∧ _
      rw [Nat.or_zero]
      rcases mem_mapSet hrc with ⟨rfl, rfl⟩ | hold
      · exact ⟨maskIncl_zero _, rfl, fun h => absurd rfl h⟩
      · exact hl.2 r c hold
    · intro r c hrc
      rcases mem_mapSet hrc with ⟨rfl, rfl⟩ | hold
      · refine Good.mk _ ⟨?_, ?_⟩ ?_
        · exact maskIncl_zero _
        · intro r c h; simp at h
        · intro r c h; simp at h
      · exact hn.child hold
  | cons r rest ih =>
    intro n hn hmask
    have hl := hn.localOK
    have hbm : maskruneslice (r :: rest) = maskBit r ||| maskruneslice rest :=
      maskruneslice_cons r rest
    -- the node stepped into, after its updates, and the fields of `n` afterwards
    obtain ⟨c1, f1, hc1, hv1, hm1, hin, hf1v, hf1m, hadd⟩ : ∃ (c1 : Node μ) (f1 : Fields μ),
        Good c1 ∧ c1.val = r ∧ maskIncl c1.mask (maskruneslice rest) ∧
        maskIncl f1.mask c1.mask ∧ f1.val = n.val ∧ maskIncl f1.mask n.mask ∧
        addLoop key meta n (r :: rest) =
          Node.mk f1 (mapSet n.children r (addLoop key meta c1 rest)) := by
      cases hg : mapGet n.children r with
      | none =>
        refine ⟨if rest = [] then
            (newNode n r [] (maskruneslice (r :: rest)) none false).incTermCount.setEnd
          else (newNode n r [] (maskruneslice (r :: rest)) none false).incTermCount,
          { n.fields with mask := n.fields.mask ||| maskruneslice (r :: rest) },
          ?_, ?_, ?_, ?_, rfl, maskIncl_or_left _ _, ?_⟩
        · refine Good.mk _ ⟨?_, ?_⟩ ?_
          · have : maskIncl (maskruneslice (r :: rest)) (maskBit r) := by
              rw [hbm]; exact maskIncl_or_left _ _
            split <;> exact this
          · intro x c h
            have : (x, c) ∈ ([] : List (Rune × Node μ)) := by
              split at h <;> exact h
            simp at this
          · intro x c h
            have : (x, c) ∈ ([] : List (Rune × Node μ)) := by
              split at h <;> exact h
            simp at this
        · split <;> rfl
        · have : maskIncl (maskruneslice (r :: rest)) (maskruneslice rest) := by
            rw [hbm]; exact maskIncl_or_right _ _
          split <;> exact this
        · have : maskIncl (n.fields.mask ||| maskruneslice (r :: rest))
              (maskruneslice (r :: rest)) := maskIncl_or_right _ _
          split <;> exact this
        · simp only [addLoop, hg]
          simp [Node.NewChild, Node.setChild]
      | some c =>
        have hmem := mem_of_mapGet hg
        obtain ⟨h1, h2, _⟩ := hl.2 r c hmem
        have hgc : Good ((c.orMask (maskruneslice (r :: rest))).incTermCount) :=
          (hn.child hmem).update rfl rfl (maskIncl_or_left _ _)
        refine ⟨if rest = [] then
            ((c.orMask (maskruneslice (r :: rest))).incTermCount).setEnd
          else (c.orMask (maskruneslice (r :: rest))).incTermCount,
          n.fields, ?_, ?_, ?_, ?_, rfl, maskIncl_refl _, ?_⟩
        · split
          · exact hgc.update rfl rfl (maskIncl_refl _)
          · exact hgc
        · split <;> exact h2
        · have : maskIncl (c.mask ||| maskruneslice (r :: rest)) (maskruneslice rest) := by
            rw [hbm]
            exact maskIncl_trans (maskIncl_or_right _ _) (maskIncl_or_right _ _)
          split <;> exact this
        · have : maskIncl n.mask (c.mask ||| maskruneslice (r :: rest)) :=
            maskIncl_or h1 hmask
          split <;> exact this
        · simp only [addLoop, hg]
          simp [Node.setChild]
    have hX := ih c1 hc1 hm1
    have hXv : (addLoop key meta c1 rest).val = r := by rw [addLoop_val, hv1]
    have hXm : (addLoop key meta c1 rest).mask = c1.mask := addLoop_mask key meta c1 rest hm1
    rw [hadd]
    refine Good.mk _ ⟨?_, ?_⟩ ?_
    · show maskIncl f1.mask (maskBit f1.val)
      rw [hf1v]; exact maskIncl_trans hf1m hl.1
    · intro x c hxc
      show maskIncl f1.mask c.mask ∧ _
      rcases mem_mapSet hxc with ⟨rfl, rfl⟩ | hold
      · exact ⟨by rw [hXm]; exact hin, hXv, fun _ => addLoop_children_ne _ _ _ _⟩
      · obtain ⟨h1, h2, h3⟩ := hl.2 x c hold
        exact ⟨maskIncl_trans hf1m h1, h2, h3⟩
    · intro x c hxc
      rcases mem_mapSet hxc with ⟨rfl, rfl⟩ | hold
      · exact hX
      · exact hn.child hold

/-! ## The facts kept by Remove -/

theorem mem_mapDelete {β : Type} {l : List (Rune × β)} {r x : Rune} {c : β}
    (h : (x, c) ∈ mapDelete l r) : (x, c) ∈ l := by
  induction l with
  | nil => simp [mapDelete] at h
  | cons a l ih =>
    obtain ⟨k, u⟩ := a
    by_cases hk : k = r
    · simp only [mapDelete, hk, if_true] at h
      exact List.mem_cons_of_mem _ h
    · simp only [mapDelete, hk, if_false] at h
      rcases List.mem_cons.1 h with h | h
      · rw [h]; exact List.mem_cons_self _ _
      · exact List.mem_cons_of_mem _ (ih h)

theorem length_mapDelete {β : Type} (l : List (Rune × β)) (r : Rune) :
    l.length ≤ (mapDelete l r).length + 1 := by
  induction l with
  | nil => simp [mapDelete]
  | cons a l ih =>
    obtain ⟨k, u⟩ := a
    by_cases hk : k = r
    · simp [mapDelete, hk]
    · simp only [mapDelete, hk, if_false, List.length_cons]
      omega

theorem foldl_childMask_init (l : List (Rune × Node μ)) (init : Nat) :
    maskIncl (l.foldl (fun m c => m ||| c.2.mask) init) init := by
  induction l generalizing init with
  | nil => exact maskIncl_refl _
  | cons a l ih =>
    exact maskIncl_trans (ih (init ||| a.2.mask)) (maskIncl_or_left _ _)

theorem foldl_childMask_mem (l : List (Rune × Node μ)) (init : Nat) {x : Rune} {c : Node μ}
    (h : (x, c) ∈ l) : maskIncl (l.foldl (fun m c => m ||| c.2.mask) init) c.mask := by
  induction l generalizing init with
  | nil => simp at h
  | cons a l ih =>
    rcases List.mem_cons.1 h with h | h
    · subst h
      exact maskIncl_trans (foldl_childMask_init l _) (maskIncl_or_right _ _)
    · exact ih _ h

theorem findNode_cons_some {n m : Node μ} {x : Rune} {xs : List Rune}
    (h : findNode n (x :: xs) = some m) :
    ∃ c, mapGet n.children x = some c ∧ findNode c xs = some m := by
  rw [findNode] at h
  cases hg : mapGet n.children x with
  | none => rw [hg] at h; simp at h
  | some c => rw [hg] at h; exact ⟨c, rfl, h⟩

/-- `RemoveChild` keeps `Good` when it is called on a node with more than one
child: the masks of the ancestors are recomputed from their children. -/
theorem detach_good (r : Rune) :
    ∀ (path : List Rune) (nd n : Node μ), Good nd → findNode nd path = some n →
      1 < n.children.length →
      Good (detach r nd path) ∧ (detach r nd path).val = nd.val ∧
        (detach r nd path).children ≠ [] := by
  intro path
  induction path with
  | nil =>
    intro nd n hg hf hlen
    have hn : n = nd := by simpa [findNode] using hf.symm
    subst hn
    have hl := hg.localOK
    refine ⟨Good.mk _ ⟨hl.1, ?_⟩ ?_, rfl, ?_⟩
    · intro x c hxc
      exact hl.2 x c (mem_mapDelete hxc)
    · intro x c hxc
      exact hg.child (mem_mapDelete hxc)
    · intro h0
      have := length_mapDelete n.children r
      have h1 : (mapDelete n.children r).length = 0 := by
        have : (n.deleteChild r).children = mapDelete n.children r := rfl
        rw [← this, show detach r n [] = n.deleteChild r from rfl] at *
        simp [h0]
      omega
  | cons x xs ih =>
    intro nd n hg hf hlen
    obtain ⟨c, hgc, hfc⟩ := findNode_cons_some hf
    have hmem := mem_of_mapGet hgc
    have hl := hg.localOK
    obtain ⟨hc1, hc2, hc3⟩ := ih c n (hg.child hmem) hfc hlen
    have hdet : detach r nd (x :: xs) = remask (nd.setChild x (detach r c xs)) := by
      simp [detach, hgc]
    rw [hdet]
    refine ⟨Good.mk _ ⟨?_, ?_⟩ ?_, rfl, mapSet_ne_nil _ _ _⟩
    · exact maskIncl_trans (foldl_childMask_init _ _) (maskIncl_or_right _ _)
    · intro y d hyd
      have hyd1 : (y, d) ∈ mapSet nd.children x (detach r c xs) := hyd
      refine ⟨foldl_childMask_mem _ _ hyd1, ?_⟩
      rcases mem_mapSet hyd1 with ⟨rfl, rfl⟩ | hold
      · exact ⟨by rw [hc2]; exact (hl.2 y c hmem).2.1, fun _ => hc3⟩
      · exact (hl.2 y d hold).2
    · intro y d hyd
      have hyd1 : (y, d) ∈ mapSet nd.children x (detach r c xs) := hyd
      rcases mem_mapSet hyd1 with ⟨rfl, rfl⟩ | hold
      · exact hc1
      · exact hg.child hold

theorem removeLoop_good (root : Node μ) (rs : List Rune) (hg : Good root) :
    ∀ d, Good (removeLoop root rs d) ∧ (removeLoop root rs d).val = root.val := by
  intro d
  induction d with
  | zero => exact ⟨hg, rfl⟩
  | succ d ih =>
    rw [removeLoop]
    cases hf : findNode root (rs.take d) with
    | none => exact ⟨hg, rfl⟩
    | some n =>
      simp only []
      split
      · rename_i hlen
        have := detach_good (rs.getD d 0) (rs.take d) root n hg hf hlen
        exact ⟨this.1, this.2.1⟩
      · exact ih

/-- What can be reached after `RemoveChild` could be reached before, with the
same `term` and `path`. -/
theorem detach_reach (r : Rune) :
    ∀ (path : List Rune) (nd m : Node μ) (s : List Rune),
      ReachBy (detach r nd path) s m →
        ∃ m0, ReachBy nd s m0 ∧ m0.term = m.term ∧ m0.path = m.path := by
  intro path
  induction path with
  | nil =>
    intro nd m s h
    cases h with
    | here => exact ⟨nd, ReachBy.here nd, rfl, rfl⟩
    | step hmem hr => exact ⟨m, ReachBy.step (mem_mapDelete hmem) hr, rfl, rfl⟩
  | cons x xs ih =>
    intro nd m s h
    cases hg : mapGet nd.children x with
    | none =>
      have : detach r nd (x :: xs) = nd := by simp [detach, hg]
      rw [this] at h
      exact ⟨m, h, rfl, rfl⟩
    | some c =>
      have hdet : detach r nd (x :: xs) = remask (nd.setChild x (detach r c xs)) := by
        simp [detach, hg]
      rw [hdet] at h
      cases h with
      | here => exact ⟨nd, ReachBy.here nd, rfl, rfl⟩
      | step hmem hr =>
        have hmem1 : (_, _) ∈ mapSet nd.children x (detach r c xs) := hmem
        rcases mem_mapSet hmem1 with ⟨rfl, rfl⟩ | hold
        · obtain ⟨m0, h0, ht, hp⟩ := ih c m _ hr
          exact ⟨m0, ReachBy.step (mem_of_mapGet hg) h0, ht, hp⟩
        · exact ⟨m, ReachBy.step hold hr, rfl, rfl⟩

theorem removeLoop_reach (root : Node μ) (rs : List Rune) :
    ∀ (d : Nat) (m : Node μ) (s : List Rune), ReachBy (removeLoop root rs d) s m →
      ∃ m0, ReachBy root s m0 ∧ m0.term = m.term ∧ m0.path = m.path := by
  intro d
  induction d with
  | zero => intro m s h; exact ⟨m, h, rfl, rfl⟩
  | succ d ih =>
    intro m s h
    rw [removeLoop] at h
    cases hf : findNode root (rs.take d) with
    | none => rw [hf] at h; exact ⟨m, h, rfl, rfl⟩
    | some n =>
      rw [hf] at h
      simp only [] at h
      split at h
      · exact detach_reach _ _ _ _ _ h
      · exact ih m s h

/-! ## Reachable tries -/

theorem trieOK_New : TrieOK (New : Trie μ) := by
  refine ⟨Good.mk _ ⟨maskIncl_zero _, ?_⟩ ?_, rfl, ?_⟩
  · intro r c h; simp [New] at h
  · intro r c h; simp [New] at h
  · intro s m h ht
    obtain ⟨_, rfl⟩ := @reachBy_no_children μ (New : Trie μ).root _ _ rfl h
    simp [New, Node.term] at ht

theorem trieOK_Add (t : Trie μ) (key : Key) (meta : Option μ) (h : TrieOK t) :
    TrieOK (t.Add key meta) := by
  obtain ⟨hg, hv, hp⟩ := h
  refine ⟨?_, ?_, ?_⟩
  · apply addLoop_good
    · exact hg.update rfl rfl (maskIncl_or_left _ _)
    · exact maskIncl_or_right _ _
  · show (addLoop key meta _ key).val = 0
    rw [addLoop_val]; exact hv
  · intro s m hr ht
    rcases addLoop_reach key meta key _ m s hr with ⟨m0, h0, ht0, hp0⟩ | ⟨_, htf⟩ | ⟨hs, _, hpk⟩
    · obtain ⟨m1, h1, ht1, hp1⟩ := @reachBy_congr μ t.root _ _ _ h0 rfl rfl rfl
      have := hp s m1 h1 (by rw [ht1, ht0]; exact ht)
      rw [this, hp1, hp0]
    · rw [ht] at htf; simp at htf
    · rw [hs, hpk]

theorem trieOK_Remove (t t1 : Trie μ) (key : Key) (h : TrieOK t)
    (hr : t.Remove key = some t1) : TrieOK t1 := by
  obtain ⟨hg, hv, hp⟩ := h
  unfold Trie.Remove at hr
  cases hf : findNode t.root key with
  | none => rw [hf] at hr; simp at hr
  | some n =>
    rw [hf] at hr
    simp only [Option.some.injEq] at hr
    subst hr
    have hgood := removeLoop_good t.root key hg key.length
    refine ⟨hgood.1, by rw [← hv]; exact hgood.2, ?_⟩
    intro s m hreach ht
    obtain ⟨m0, h0, ht0, hp0⟩ := removeLoop_reach t.root key key.length m s hreach
    have := hp s m0 h0 (by rw [ht0]; exact ht)
    rw [this, hp0]

theorem reachable_ok {P : Key → Prop} {t : Trie μ} (h : Reachable P t) : TrieOK t := by
  induction h with
  | new => exact trieOK_New
  | add key meta _ _ ih => exact trieOK_Add _ key meta ih
  | remove key _ _ hr ih => exact trieOK_Remove _ _ key ih hr

theorem good_reach {n m : Node μ} {s : List Rune} (hg : Good n) (h : ReachBy n s m) : Good m := by
  induction h with
  | here _ => exact hg
  | step hc _ ih => exact ih (hg.child hc)

/-- The mask of a node holds the mask of every node below it. -/
theorem good_descendant {n m : Node μ} {s : List Rune} (hg : Good n) (h : ReachBy n s m) :
    maskIncl n.mask m.mask := by
  induction h with
  | here _ => exact maskIncl_refl _
  | step hc _ ih => exact maskIncl_trans (hg.localOK.2 _ _ hc).1 (ih (hg.child hc))

/-- A node reached along a non-empty path carries the last code point of the
path. -/
theorem good_last_val {n m : Node μ} {s : List Rune} (hg : Good n) (h : ReachBy n s m) :
    ∀ x s0, s = s0 ++ [x] → m.val = x := by
  induction h with
  | here _ => intro x s0 h; simp at h
  | @step n c m r s hc hr ih =>
    intro x s0 h
    cases s0 with
    | nil =>
      simp at h
      obtain ⟨rfl, rfl⟩ := h
      have := reachBy_nil hr
      rw [this]; exact (hg.localOK.2 _ _ hc).2.1
    | cons y s1 =>
      simp at h
      exact ih (hg.child hc) x s1 h.2

/-! ## The loop of fuzzycollect -/

theorem collect_some {node : Node μ} {ks : Option (List Key)} (h : collect node = some ks) :
    node.children ≠ [] := by
  intro h0
  unfold collect at h
  rw [h0] at h
  simp at h

theorem lowerCase_ne_nul {k : Key} (h : lowerCase k) : ∀ x ∈ k, x ≠ nul := by
  intro x hx h0
  have := (h x hx).1
  rw [h0] at this
  simp [nul] at this

/-- A pattern without `nul` that is spread over `0 :: K ++ [nul]` is spread
over `K`. -/
theorem sublist_strip {p K : List Rune} {v : Rune} (hv : v = nul) (hp : ∀ x ∈ p, x ≠ nul)
    (h : p.Sublist (v :: (K ++ [nul]))) : p.Sublist K := by
  have h1 := h.filter (fun x => decide (x ≠ nul))
  have h2 : p.filter (fun x => decide (x ≠ nul)) = p :=
    List.filter_eq_self.2 (fun a ha => by simpa using hp a ha)
  rw [h2] at h1
  have h3 : (v :: (K ++ [nul])).filter (fun x => decide (x ≠ nul)) =
      K.filter (fun x => decide (x ≠ nul)) := by
    simp [List.filter_cons, List.filter_append, hv]
  rw [h3] at h1
  exact h1.trans (List.filter_sublist K)

theorem potential_children_nodes (cs : List (Rune × Node μ)) (i : Nat) :
    ((cs.map (fun c => potentialSubtree.mk i c.2)).reverse).map (fun p => p.node) =
      (cs.map Prod.snd).reverse := by
  rw [List.map_reverse, List.map_map]
  rfl

/-- Every key that the loop of `fuzzycollect` returns was there at the start
or is the `path` of a terminal node below an entry of the work list, reached
along code points over which the rest of the pattern is spread. -/
theorem fuzzyLoop_sound (pat : List Rune) :
    ∀ (fuel : Nat) (potential : List (potentialSubtree μ)) (keys : List Key)
      (res : List (potentialSubtree μ) × List Key),
      (∀ p ∈ potential, Good p.node) →
      fuzzyLoop pat fuel potential keys = some res →
      ∀ K ∈ res.2, K ∈ keys ∨ ∃ p ∈ potential, ∃ s m, ReachBy p.node s m ∧
        m.term = true ∧ m.path = K ∧ (pat.drop p.idx).Sublist (p.node.val :: s) := by
  intro fuel
  induction fuel with
  | zero =>
    intro potential keys res _ h K hK
    simp only [fuzzyLoop, Option.some.injEq] at h
    subst h
    exact Or.inl hK
  | succ fuel ih =>
    intro potential keys res hgood h K hK
    cases potential with
    | nil =>
      simp only [fuzzyLoop, Option.some.injEq] at h
      subst h
      exact Or.inl hK
    | cons p potential =>
      have hgp : Good p.node := hgood p (by simp)
      have hgrest : ∀ q ∈ potential, Good q.node := fun q hq => hgood q (by simp [hq])
      -- entries of the rest of the work list stay entries
      have lift : (K ∈ keys ∨ ∃ q ∈ potential, ∃ s m, ReachBy q.node s m ∧
            m.term = true ∧ m.path = K ∧ (pat.drop q.idx).Sublist (q.node.val :: s)) →
          (K ∈ keys ∨ ∃ q ∈ p :: potential, ∃ s m, ReachBy q.node s m ∧
            m.term = true ∧ m.path = K ∧ (pat.drop q.idx).Sublist (q.node.val :: s)) := by
        rintro (h1 | ⟨q, hq, h2⟩)
        · exact Or.inl h1
        · exact Or.inr ⟨q, by simp [hq], h2⟩
      -- the children pushed with index `i`, when `pat.drop p.idx` is spread over
      -- `p.node.val` followed by what `pat.drop i` is spread over
      have push : ∀ i, (∀ l : List Rune, (pat.drop i).Sublist l →
              (pat.drop p.idx).Sublist (p.node.val :: l)) →
          fuzzyLoop pat fuel
            ((p.node.children.map (fun c => potentialSubtree.mk i c.2)).reverse ++ potential)
            keys = some res →
          (K ∈ keys ∨ ∃ q ∈ p :: potential, ∃ s m, ReachBy q.node s m ∧
            m.term = true ∧ m.path = K ∧ (pat.drop q.idx).Sublist (q.node.val :: s)) := by
        intro i hsub hrun
        have hg2 : ∀ q ∈ (p.node.children.map (fun c => potentialSubtree.mk i c.2)).reverse
            ++ potential, Good q.node := by
          intro q hq
          rcases List.mem_append.1 hq with hq | hq
          · obtain ⟨⟨r, c⟩, hrc, rfl⟩ := List.mem_map.1 (List.mem_reverse.1 hq)
            exact hgp.child hrc
          · exact hgrest q hq
        rcases ih _ keys res hg2 hrun K hK with h1 | ⟨q, hq, s, m, hr, ht, hpth, hs⟩
        · exact Or.inl h1
        · rcases List.mem_append.1 hq with hq | hq
          · obtain ⟨⟨r, c⟩, hrc, rfl⟩ := List.mem_map.1 (List.mem_reverse.1 hq)
            have hval : c.val = r := (hgp.localOK.2 r c hrc).2.1
            refine Or.inr ⟨p, by simp, r :: s, m, ReachBy.step hrc hr, ht, hpth, ?_⟩
            apply hsub
            simpa [hval] using hs
          · exact Or.inr ⟨q, by simp [hq], s, m, hr, ht, hpth, hs⟩
      rw [fuzzyLoop] at h
      split at h
      · exact lift (ih potential keys res hgrest h K hK)
      · cases hget : pat[p.idx]? with
        | none => rw [hget] at h; simp at h
        | some c =>
          rw [hget] at h
          simp only [] at h
          have hidx : p.idx < pat.length := by
            by_contra hcon
            rw [List.getElem?_eq_none_iff.2 (by omega)] at hget
            simp at hget
          have hc : pat[p.idx] = c := by
            rw [List.getElem?_eq_getElem hidx] at hget
            exact Option.some.inj hget
          have hdrop : pat.drop p.idx = c :: pat.drop (p.idx + 1) := by
            rw [List.drop_eq_getElem_cons hidx, hc]
          split at h
          · rename_i hval
            split at h
            · rename_i hlast
              cases hcol : collect p.node with
              | none => rw [hcol] at h; simp at h
              | some ks =>
                rw [hcol] at h
                simp only [] at h
                rcases ih potential _ res hgrest h K hK with h1 | h2
                · rcases List.mem_append.1 h1 with h1 | h1
                  · exact Or.inl h1
                  · obtain ⟨r, hr, hmem, _⟩ := collect_spec p.node (collect_some hcol)
                    have hrk : r = ks := by rw [hcol] at hr; exact (Option.some.inj hr).symm
                    subst hrk
                    obtain ⟨s, m, hreach, ht, hpth⟩ := (hmem K).1 h1
                    refine Or.inr ⟨p, by simp, s, m, hreach, ht, hpth, ?_⟩
                    rw [hdrop, hval]
                    have : pat.drop (p.idx + 1) = [] := List.drop_eq_nil_iff.2 (by omega)
                    rw [this]
                    exact List.cons_sublist_cons.2 (List.nil_sublist _)
                · exact lift (Or.inr h2)
            · apply push (p.idx + 1) _ h
              intro l hl
              rw [hdrop, hval]
              exact List.cons_sublist_cons.2 hl
          · apply push p.idx _ h
            intro l hl
            exact List.Sublist.cons _ hl

/-- The mask of a good node holds the letter bit of its own code point and of
every code point on a path below it. -/
theorem good_path_mask {n m : Node μ} {s : List Rune} (hg : Good n) (h : ReachBy n s m) :
    ∀ x ∈ n.val :: s, maskIncl n.mask (maskBit x) := by
  induction h with
  | here n =>
    intro x hx
    have : x = n.val := by simpa using hx
    rw [this]; exact hg.localOK.1
  | @step n c m r s hc hr ih =>
    intro x hx
    rcases List.mem_cons.1 hx with rfl | hx
    · exact hg.localOK.1
    · obtain ⟨h1, h2, _⟩ := hg.localOK.2 r c hc
      apply maskIncl_trans h1
      apply ih (hg.child hc)
      rw [h2]; exact hx

/-- The test of `fuzzycollect` lets through every node that has, below it, a
path over which the rest of the pattern is spread. -/
theorem good_mask_test {n m : Node μ} {s q : List Rune} (hg : Good n) (h : ReachBy n s m)
    (hq : q.Sublist (n.val :: s)) : n.mask &&& maskruneslice q = maskruneslice q :=
  maskIncl_maskruneslice.2 (fun r hr => good_path_mask hg h r (hq.subset hr))

theorem sublist_cons_of_ne {a b : Rune} {l1 l2 : List Rune}
    (h : (a :: l1).Sublist (b :: l2)) (hne : ¬ b = a) : (a :: l1).Sublist l2 := by
  cases h with
  | cons _ h => exact h
  | cons₂ _ h => exact absurd rfl hne

theorem count_pos (n : Node μ) : 0 < n.count := by
  rw [count_eq]; omega

/-- With fuel for every node in and below the work list, the loop of
`fuzzycollect` does not panic, ends with an empty work list, keeps the keys it
started with, and returns the `path` of every terminal node that lies below an
entry of the work list on a path over which the rest of the pattern is
spread. -/
theorem fuzzyLoop_complete (pat : List Rune) (hpat : ∀ x ∈ pat, x ≠ nul) :
    ∀ (fuel : Nat) (potential : List (potentialSubtree μ)) (keys : List Key),
      countStack (potential.map (fun p => p.node)) ≤ fuel →
      (∀ p ∈ potential, Good p.node ∧ p.idx < pat.length ∧
          (p.node.val ≠ nul → p.node.children ≠ [])) →
      ∃ res, fuzzyLoop pat fuel potential keys = some ([], res) ∧
        (∀ K ∈ keys, K ∈ res) ∧
        ∀ p ∈ potential, ∀ s m, ReachBy p.node s m → m.term = true →
          (pat.drop p.idx).Sublist (p.node.val :: s) → m.path ∈ res := by
  intro fuel
  induction fuel with
  | zero =>
    intro potential keys hfuel _
    cases potential with
    | nil => exact ⟨keys, rfl, fun K hK => hK, fun p hp => by simp at hp⟩
    | cons p potential =>
      have := count_pos p.node
      simp only [List.map_cons, countStack] at hfuel
      omega
  | succ fuel ih =>
    intro potential keys hfuel hok
    cases potential with
    | nil => exact ⟨keys, rfl, fun K hK => hK, fun p hp => by simp at hp⟩
    | cons p potential =>
      obtain ⟨hgp, hidx, hch⟩ := hok p (by simp)
      have hokrest : ∀ q ∈ potential, Good q.node ∧ q.idx < pat.length ∧
          (q.node.val ≠ nul → q.node.children ≠ []) := fun q hq => hok q (by simp [hq])
      have hcnt := count_eq p.node
      simp only [List.map_cons, countStack] at hfuel
      have hfrest : countStack (potential.map (fun p => p.node)) ≤ fuel := by omega
      have hget : pat[p.idx]? = some pat[p.idx] := List.getElem?_eq_getElem hidx
      have hdrop : pat.drop p.idx = pat[p.idx] :: pat.drop (p.idx + 1) :=
        List.drop_eq_getElem_cons hidx
      -- the children pushed with index `i`
      have push : ∀ i, i < pat.length →
          (∀ s m, ReachBy p.node s m → m.term = true →
            (pat.drop p.idx).Sublist (p.node.val :: s) →
            ∃ r c s1, (r, c) ∈ p.node.children ∧ ReachBy c s1 m ∧
              (pat.drop i).Sublist (c.val :: s1)) →
          ∃ res, fuzzyLoop pat fuel
              ((p.node.children.map (fun c => potentialSubtree.mk i c.2)).reverse ++ potential)
              keys = some ([], res) ∧
            (∀ K ∈ keys, K ∈ res) ∧
            ∀ q ∈ p :: potential, ∀ s m, ReachBy q.node s m → m.term = true →
              (pat.drop q.idx).Sublist (q.node.val :: s) → m.path ∈ res := by
        intro i hi hdown
        have hf2 : countStack (((p.node.children.map
            (fun c => potentialSubtree.mk i c.2)).reverse ++ potential).map
              (fun p => p.node)) ≤ fuel := by
          rw [List.map_append, potential_children_nodes, countStack_append,
            countStack_reverse, countStack_children]
          omega
        have hok2 : ∀ q ∈ (p.node.children.map (fun c => potentialSubtree.mk i c.2)).reverse
            ++ potential, Good q.node ∧ q.idx < pat.length ∧
              (q.node.val ≠ nul → q.node.children ≠ []) := by
          intro q hq
          rcases List.mem_append.1 hq with hq | hq
          · obtain ⟨⟨r, c⟩, hrc, rfl⟩ := List.mem_map.1 (List.mem_reverse.1 hq)
            obtain ⟨_, h2, h3⟩ := hgp.localOK.2 r c hrc
            exact ⟨hgp.child hrc, hi, fun hv => h3 (by rw [← h2]; exact hv)⟩
          · exact hokrest q hq
        obtain ⟨res, hres, hkeys, hall⟩ := ih _ keys hf2 hok2
        refine ⟨res, hres, hkeys, ?_⟩
        intro q hq s m hr ht hs
        rcases List.mem_cons.1 hq with rfl | hq
        · obtain ⟨r, c, s1, hrc, hr1, hs1⟩ := hdown s m hr ht hs
          exact hall (potentialSubtree.mk i c)
            (List.mem_append.2 (Or.inl (List.mem_reverse.2
              (List.mem_map.2 ⟨(r, c), hrc, rfl⟩)))) s1 m hr1 ht hs1
        · exact hall q (List.mem_append.2 (Or.inr hq)) s m hr ht hs
      -- a path below `p.node` that is not empty starts at a child
      have down : ∀ (s : List Rune) (m : Node μ) (q : List Rune), ReachBy p.node s m →
          q ≠ [] → q.Sublist s →
          ∃ r c s1, (r, c) ∈ p.node.children ∧ ReachBy c s1 m ∧ q.Sublist (c.val :: s1) := by
        intro s m q hr hq hs
        cases s with
        | nil => exact absurd (List.sublist_nil.1 hs) hq
        | cons r s1 =>
          obtain ⟨c, hrc, hr1⟩ := reachBy_cons hr
          refine ⟨r, c, s1, hrc, hr1, ?_⟩
          rw [(hgp.localOK.2 r c hrc).2.1]; exact hs
      rw [fuzzyLoop]
      by_cases htest : p.node.mask &&& maskruneslice (pat.drop p.idx)
          ≠ maskruneslice (pat.drop p.idx)
      · rw [if_pos htest]
        obtain ⟨res, hres, hkeys, hall⟩ := ih potential keys hfrest hokrest
        refine ⟨res, hres, hkeys, ?_⟩
        intro q hq s m hr ht hs
        rcases List.mem_cons.1 hq with rfl | hq
        · exact absurd (good_mask_test hgp hr hs) htest
        · exact hall q hq s m hr ht hs
      · rw [if_neg htest, hget]
        simp only []
        by_cases hval : p.node.val = pat[p.idx]
        · rw [if_pos hval]
          by_cases hlast : p.idx + 1 = pat.length
          · rw [if_pos hlast]
            have hne : p.node.children ≠ [] :=
              hch (by rw [hval]; exact hpat _ (List.getElem_mem _))
            obtain ⟨r, hr, hmem, _⟩ := collect_spec p.node hne
            rw [hr]
            simp only []
            obtain ⟨res, hres, hkeys, hall⟩ := ih potential (keys ++ r.getD []) hfrest hokrest
            refine ⟨res, hres, fun K hK => hkeys K (List.mem_append.2 (Or.inl hK)), ?_⟩
            intro q hq s m hreach ht hs
            rcases List.mem_cons.1 hq with rfl | hq
            · exact hkeys _ (List.mem_append.2 (Or.inr ((hmem m.path).2 ⟨s, m, hreach, ht, rfl⟩)))
            · exact hall q hq s m hreach ht hs
          · rw [if_neg hlast]
            apply push (p.idx + 1) (by omega)
            intro s m hr ht hs
            rw [hdrop, ← hval] at hs
            have hs1 := List.cons_sublist_cons.1 hs
            apply down s m _ hr _ hs1
            intro h0
            have := List.drop_eq_nil_iff.1 h0
            omega
        · rw [if_neg hval]
          apply push p.idx hidx
          intro s m hr ht hs
          have hs1 : (pat.drop p.idx).Sublist s := by
            rw [hdrop] at hs ⊢
            exact sublist_cons_of_ne hs hval
          apply down s m _ hr _ hs1
          intro h0
          have := List.drop_eq_nil_iff.1 h0
          omega

theorem reachable_build {P : Key → Prop} (adds : List (Key × Option μ))
    (h : ∀ a ∈ adds, P a.1) : Reachable P (build adds) := by
  induction adds using List.reverseRecOn with
  | nil => exact Reachable.new
  | append_singleton l a ih =>
    rw [build_snoc]
    exact Reachable.add a.1 a.2 (ih (fun b hb => h b (by simp [hb]))) (h a (by simp))

theorem mem_sortByKeys {keys : List Key} {K : Key} : K ∈ sortByKeys keys ↔ K ∈ keys :=
  (sortByKeys_perm keys).mem_iff

/-- A stored key: the terminal node below the end of its path, with the key
as its `path`. -/
theorem stored_terminal {t : Trie μ} (hok : TrieOK t) {K : Key}
    (hK : (t.Find K).isSome = true) :
    ∃ m, findNode t.root (K ++ [nul]) = some m ∧ m.term = true ∧ m.path = K ∧
      t.root.children ≠ [] := by
  obtain ⟨m, hm⟩ := Option.isSome_iff_exists.1 hK
  obtain ⟨node, h1, h2, h3⟩ := (find_some_iff _ _ _).1 hm
  have hf : findNode t.root (K ++ [nul]) = some m := by
    rw [findNode_append, h1]
    simp [findNode, h2]
  have hp := hok.2.2 _ _ (reachBy_of_findNode _ _ _ hf) h3
  refine ⟨m, hf, h3, (List.append_cancel_right hp).symm, ?_⟩
  intro h0
  cases hq : K ++ [nul] with
  | nil => simp at hq
  | cons x rest =>
    rw [hq] at hf
    obtain ⟨c, hc, _⟩ := findNode_cons_some hf
    rw [h0] at hc
    simp [mapGet] at hc

/-- In a trie with the facts of `TrieOK`, `FuzzySearch` with a lower-case
pattern returns every stored key over which the pattern is spread. -/
theorem fuzzySearch_complete_ok {t : Trie μ} (hok : TrieOK t) {pat K : Key}
    (hpat : lowerCase pat) (hK : (t.Find K).isSome = true) (hsub : pat.Sublist K) :
    ∃ l, t.FuzzySearch pat = some (some l) ∧ K ∈ l := by
  obtain ⟨m, hf, ht, hp, hne⟩ := stored_terminal hok hK
  have hreach := reachBy_of_findNode _ _ _ hf
  -- what fuzzycollect returns
  have hcol : ∃ l, fuzzycollect t.root pat = some (some l) ∧ K ∈ l := by
    by_cases hpe : pat.length = 0
    · obtain ⟨r, hr, hmem, _⟩ := collect_spec t.root hne
      have hKr : K ∈ r.getD [] := (hmem K).2 ⟨_, m, hreach, ht, hp⟩
      cases r with
      | none => simp at hKr
      | some l => exact ⟨l, by rw [fuzzycollect, if_pos hpe, hr], by simpa using hKr⟩
    · obtain ⟨res, hres, _, hall⟩ := fuzzyLoop_complete pat (lowerCase_ne_nul hpat)
        t.root.count [potentialSubtree.mk 0 t.root] [] (by simp [countStack])
        (by
          intro p hp1
          have : p = potentialSubtree.mk 0 t.root := by simpa using hp1
          subst this
          exact ⟨hok.1, Nat.pos_of_ne_zero hpe, fun h => absurd hok.2.1 h⟩)
      have hKres : m.path ∈ res := by
        apply hall (potentialSubtree.mk 0 t.root) (by simp) _ m hreach ht
        show (pat.drop 0).Sublist (t.root.val :: (K ++ [nul]))
        rw [List.drop_zero]
        exact List.Sublist.cons _ (hsub.trans (List.sublist_append_left K [nul]))
      rw [hp] at hKres
      cases res with
      | nil => simp at hKres
      | cons k ks =>
        refine ⟨k :: ks, ?_, hKres⟩
        rw [fuzzycollect, if_neg hpe, hres]
  obtain ⟨l, hl, hKl⟩ := hcol
  exact ⟨sortByKeys l, by rw [Trie.FuzzySearch, hl], mem_sortByKeys.2 hKl⟩

/-- In a trie with the facts of `TrieOK`, `FuzzySearch` returns (it does not
panic) when the pattern is not empty or the root has a child. -/
theorem fuzzySearch_returns_ok {t : Trie μ} (hok : TrieOK t) {pat : Key}
    (hpat : lowerCase pat) (h : pat ≠ [] ∨ t.root.children ≠ []) :
    ∃ r, t.FuzzySearch pat = some r := by
  have hcol : ∃ r, fuzzycollect t.root pat = some r := by
    by_cases hpe : pat.length = 0
    · rcases h with h | h
      · exact absurd (List.length_eq_zero.1 hpe) h
      · obtain ⟨r, hr, _⟩ := collect_spec t.root h
        exact ⟨r, by rw [fuzzycollect, if_pos hpe, hr]⟩
    · obtain ⟨res, hres, _, _⟩ := fuzzyLoop_complete pat (lowerCase_ne_nul hpat)
        t.root.count [potentialSubtree.mk 0 t.root] [] (by simp [countStack])
        (by
          intro p hp1
          have : p = potentialSubtree.mk 0 t.root := by simpa using hp1
          subst this
          exact ⟨hok.1, Nat.pos_of_ne_zero hpe, fun h => absurd hok.2.1 h⟩)
      cases res with
      | nil => exact ⟨none, by rw [fuzzycollect, if_neg hpe, hres]⟩
      | cons k ks => exact ⟨some (k :: ks), by rw [fuzzycollect, if_neg hpe, hres]⟩
  obtain ⟨r, hr⟩ := hcol
  cases r with
  | none => exact ⟨none, by rw [Trie.FuzzySearch, hr]⟩
  | some l => exact ⟨some (sortByKeys l), by rw [Trie.FuzzySearch, hr]⟩

/-- Every key that `fuzzycollect` returns from the root of a good trie is the
`path` of a terminal node, reached along code points over which the pattern
is spread. -/
theorem fuzzycollect_sound_ok {t : Trie μ} (hok : TrieOK t) {pat : Key} {l : List Key}
    (h : fuzzycollect t.root pat = some (some l)) :
    ∀ K ∈ l, ∃ s m, ReachBy t.root s m ∧ m.term = true ∧ m.path = K ∧
      pat.Sublist (t.root.val :: s) := by
  intro K hK
  by_cases hpe : pat.length = 0
  · rw [fuzzycollect, if_pos hpe] at h
    obtain ⟨r, hr, hmem, _⟩ := collect_spec t.root (collect_some h)
    have : r = some l := by rw [h] at hr; exact (Option.some.inj hr).symm
    subst this
    obtain ⟨s, m, h1, h2, h3⟩ := (hmem K).1 (by simpa using hK)
    refine ⟨s, m, h1, h2, h3, ?_⟩
    rw [List.length_eq_zero.1 hpe]
    exact List.nil_sublist _
  · rw [fuzzycollect, if_neg hpe] at h
    cases hrun : fuzzyLoop pat t.root.count [potentialSubtree.mk 0 t.root] [] with
    | none => rw [hrun] at h; simp at h
    | some res =>
      obtain ⟨pot, ks⟩ := res
      rw [hrun] at h
      have hks : ks = l := by
        cases ks with
        | nil => simp at h
        | cons k ks => simpa using h
      subst hks
      rcases fuzzyLoop_sound pat _ _ _ _ (by
          intro p hp1
          have : p = potentialSubtree.mk 0 t.root := by simpa using hp1
          subst this
          exact hok.1) hrun K hK with h1 | ⟨p, hp1, s, m, h2, h3, h4, h5⟩
      · simp at h1
      · have : p = potentialSubtree.mk 0 t.root := by simpa using hp1
        subst this
        exact ⟨s, m, h2, h3, h4, by simpa using h5⟩

theorem lowerCase_nul_free {adds : List (Key × Option μ)} (h : ∀ a ∈ adds, lowerCase a.1) :
    ∀ a ∈ adds, nul ∉ a.1 :=
  fun a ha hn => lowerCase_ne_nul (h a ha) nul hn rfl

/-! ## Counting terminal nodes -/

theorem termNodes_eq (n : Node μ) :
    n.termNodes = (if n.term = true then 1 else 0) + termNodesList n.children := by
  cases n with
  | mk f cs => simp [Node.termNodes, Node.term]

theorem termNodesList_mapSet (l : List (Rune × Node μ)) (r : Rune) (c : Node μ) :
    termNodesList (mapSet l r c) +
        (match mapGet l r with
          | some old => old.termNodes
          | none => 0) = termNodesList l + c.termNodes := by
  induction l with
  | nil => simp [mapSet, mapGet, termNodesList]
  | cons a l ih =>
    obtain ⟨k, w⟩ := a
    by_cases hk : k = r
    · simp only [mapSet, mapGet, hk, if_true, termNodesList]
      omega
    · simp only [mapSet, mapGet, hk, if_false, termNodesList]
      omega

theorem NulLeaf.nul_child {n c : Node μ} (h : NulLeaf n) (hc : mapGet n.children nul = some c) :
    c.term = true ∧ c.children = [] := by
  cases h with
  | mk _ h1 _ => exact h1 c hc

theorem NulLeaf.child_leaf {n c : Node μ} {r : Rune} (h : NulLeaf n) (hc : (r, c) ∈ n.children) :
    NulLeaf c := by
  cases h with
  | mk _ _ h2 => exact h2 r c hc

theorem NulLeaf.of_children {n n1 : Node μ} (h : NulLeaf n) (hc : n1.children = n.children) :
    NulLeaf n1 := by
  refine NulLeaf.mk n1 ?_ ?_
  · intro c hg; rw [hc] at hg; exact h.nul_child hg
  · intro r c hrc; rw [hc] at hrc; exact h.child_leaf hrc

theorem nulLeaf_no_children {n : Node μ} (h : n.children = []) : NulLeaf n := by
  refine NulLeaf.mk n ?_ ?_
  · intro c hg; rw [h] at hg; simp [mapGet] at hg
  · intro r c hrc; rw [h] at hrc; simp at hrc

theorem addLoop_term (key : Key) (meta : Option μ) (n : Node μ) (rs : List Rune) :
    (addLoop key meta n rs).term = n.term := by
  cases rs with
  | nil => rfl
  | cons r rest =>
    simp only [addLoop]
    cases mapGet n.children r <;> rfl

theorem addLoop_children_cons (key : Key) (meta : Option μ) (n : Node μ) (r : Rune)
    (rest : List Rune) :
    ∃ c1 : Node μ,
      (addLoop key meta n (r :: rest)).children =
        mapSet n.children r (addLoop key meta c1 rest) ∧
      (match mapGet n.children r with
        | some c => c1.children = c.children ∧ c1.term = c.term
        | none => c1.children = [] ∧ c1.term = false) := by
  cases hg : mapGet n.children r with
  | none =>
    refine ⟨if rest = [] then
        (newNode n r [] (maskruneslice (r :: rest)) none false).incTermCount.setEnd
      else (newNode n r [] (maskruneslice (r :: rest)) none false).incTermCount, ?_, ?_⟩
    · simp only [addLoop, hg]
      simp [Node.NewChild]
    · constructor <;> split <;> rfl
  | some c =>
    refine ⟨if rest = [] then
        ((c.orMask (maskruneslice (r :: rest))).incTermCount).setEnd
      else (c.orMask (maskruneslice (r :: rest))).incTermCount, ?_, ?_⟩
    · simp only [addLoop, hg]
      simp
    · constructor <;> split <;> rfl

/-- The loop of `Add` with a NUL-free rest of the key adds one terminal node,
unless the key is already stored: then the terminal node is replaced. -/
theorem addLoop_termNodes (key : Key) (meta : Option μ) :
    ∀ (rs : List Rune) (n : Node μ), nul ∉ rs → NulLeaf n →
      (addLoop key meta n rs).termNodes + (if (findTerm n rs).isSome = true then 1 else 0)
          = n.termNodes + 1 ∧
      NulLeaf (addLoop key meta n rs) := by
  intro rs
  induction rs with
  | nil =>
    intro n _ hn
    have hS : (newNode n nul key 0 meta true).termNodes = 1 := by
      rw [termNodes_eq]; rfl
    have hcount := termNodesList_mapSet n.children nul (newNode n nul key 0 meta true)
    have hch : (addLoop key meta n []).children =
        mapSet n.children nul (newNode n nul key 0 meta true) := rfl
    constructor
    · rw [termNodes_eq, termNodes_eq n, addLoop_term, hch, findTerm_nil]
      cases hg : mapGet n.children nul with
      | none =>
        rw [hg] at hcount
        dsimp only at hcount
        simp only [Option.isSome_none, Bool.false_eq_true, if_false]
        omega
      | some c =>
        rw [hg] at hcount
        obtain ⟨h1, h2⟩ := hn.nul_child hg
        have hc : c.termNodes = 1 := by
          rw [termNodes_eq, h1, h2]; rfl
        simp only [h1, if_true, Option.isSome_some]
        dsimp only at hcount
        omega
    · refine NulLeaf.mk _ ?_ ?_
      · intro c hg
        rw [hch, mapGet_mapSet_same] at hg
        have := Option.some.inj hg
        subst this
        exact ⟨rfl, rfl⟩
      · intro r c hrc
        rw [hch] at hrc
        rcases mem_mapSet hrc with ⟨_, rfl⟩ | hold
        · exact nulLeaf_no_children rfl
        · exact hn.child_leaf hold
  | cons r rest ih =>
    intro n hrs hn
    have hr : r ≠ nul := fun h => hrs (by simp [h])
    have hrest : nul ∉ rest := fun h => hrs (by simp [h])
    obtain ⟨c1, hch, hc1⟩ := addLoop_children_cons key meta n r rest
    have hcount := termNodesList_mapSet n.children r (addLoop key meta c1 rest)
    cases hg : mapGet n.children r with
    | none =>
      rw [hg] at hc1 hcount
      obtain ⟨h1, h2⟩ := hc1
      obtain ⟨ih1, ih2⟩ := ih c1 hrest (nulLeaf_no_children h1)
      have hc1n : c1.termNodes = 0 := by
        rw [termNodes_eq, h1, h2]; rfl
      rw [findTerm_no_children h1] at ih1
      constructor
      · rw [termNodes_eq, termNodes_eq n, addLoop_term, hch, findTerm_cons, hg]
        simp only [Option.isSome_none, Bool.false_eq_true, if_false] at ih1 ⊢
        dsimp only at hcount
        omega
      · refine NulLeaf.mk _ ?_ ?_
        · intro c hgc
          rw [hch, mapGet_mapSet_ne _ _ hr] at hgc
          exact hn.nul_child hgc
        · intro x c hxc
          rw [hch] at hxc
          rcases mem_mapSet hxc with ⟨_, rfl⟩ | hold
          · exact ih2
          · exact hn.child_leaf hold
    | some c =>
      rw [hg] at hc1 hcount
      obtain ⟨h1, h2⟩ := hc1
      have hcn : NulLeaf c1 := (hn.child_leaf (mem_of_mapGet hg)).of_children h1
      obtain ⟨ih1, ih2⟩ := ih c1 hrest hcn
      have hc1n : c1.termNodes = c.termNodes := by
        rw [termNodes_eq, termNodes_eq c, h1, h2]
      rw [findTerm_congr h1] at ih1
      constructor
      · rw [termNodes_eq, termNodes_eq n, addLoop_term, hch, findTerm_cons, hg]
        dsimp only at hcount ⊢
        omega
      · refine NulLeaf.mk _ ?_ ?_
        · intro c0 hgc
          rw [hch, mapGet_mapSet_ne _ _ hr] at hgc
          exact hn.nul_child hgc
        · intro x c0 hxc
          rw [hch] at hxc
          rcases mem_mapSet hxc with ⟨_, rfl⟩ | hold
          · exact ih2
          · exact hn.child_leaf hold

/-- After `Add` calls with NUL-free keys, the size is the number of calls and
the number of terminal nodes is the number of distinct keys. -/
theorem build_counts (adds : List (Key × Option μ)) (hadds : ∀ a ∈ adds, nul ∉ a.1) :
    (build adds).size = adds.length ∧
    (build adds).root.termNodes = (adds.map Prod.fst).toFinset.card ∧
    NulLeaf (build adds).root := by
  induction adds using List.reverseRecOn with
  | nil =>
    refine ⟨rfl, ?_, nulLeaf_no_children rfl⟩
    rw [termNodes_eq]; rfl
  | append_singleton l a ih =>
    obtain ⟨key, M0⟩ := a
    have hl : ∀ a ∈ l, nul ∉ a.1 := fun a ha => hadds a (by simp [ha])
    have hkey : nul ∉ key := hadds (key, M0) (by simp)
    obtain ⟨ih1, ih2, ih3⟩ := ih hl
    have hstep := addLoop_termNodes key M0 key
      ((build l).root.orMask (maskruneslice key)).incTermCount hkey (ih3.of_children rfl)
    have hroot : (((build l).root.orMask (maskruneslice key)).incTermCount).termNodes
        = (build l).root.termNodes := by
      rw [termNodes_eq, termNodes_eq (build l).root]; rfl
    have hfind : findTerm ((build l).root.orMask (maskruneslice key)).incTermCount key
        = (build l).Find key := by
      rw [Find_eq_findTerm]
      exact findTerm_congr (show (((build l).root.orMask (maskruneslice key)).incTermCount).children
        = (build l).root.children from rfl) key
    have hmem := (build_find l key hl hkey).1
    rw [build_snoc]
    refine ⟨?_, ?_, hstep.2⟩
    · show (build l).size + 1 = _
      rw [ih1]; simp
    · show (addLoop key M0 (((build l).root.orMask (maskruneslice key)).incTermCount)
        key).termNodes = _
      have h1 := hstep.1
      rw [hfind, hroot, ih2] at h1
      have hset : (List.map Prod.fst (l ++ [(key, M0)])).toFinset
          = insert key (List.map Prod.fst l).toFinset := by
        ext x
        simp only [List.map_append, List.map_cons, List.map_nil, List.toFinset_append,
          List.toFinset_cons, List.toFinset_nil, Finset.mem_union, List.mem_toFinset,
          Finset.mem_insert, Finset.mem_singleton, insert_emptyc_eq]
        tauto
      rw [hset]
      by_cases hin : key ∈ l.map Prod.fst
      · rw [Finset.insert_eq_of_mem (List.mem_toFinset.2 hin)]
        rw [if_pos (hmem.2 hin)] at h1
        omega
      · rw [Finset.card_insert_of_not_mem (fun h => hin (List.mem_toFinset.1 h))]
        have : ¬ ((build l).Find key).isSome = true := fun h => hin (hmem.1 h)
        rw [if_neg this] at h1
        omega

/-- The loop of `fuzzycollect` needs no more fuel than the number of nodes
in and below its work list: with that much, a run that does not panic ends
with an empty work list, on every trie. -/
theorem fuzzyLoop_done (pat : List Rune) :
    ∀ (fuel : Nat) (potential : List (potentialSubtree μ)) (keys : List Key)
      (res : List (potentialSubtree μ) × List Key),
      countStack (potential.map (fun p => p.node)) ≤ fuel →
      fuzzyLoop pat fuel potential keys = some res → res.1 = [] := by
  intro fuel
  induction fuel with
  | zero =>
    intro potential keys res hfuel h
    cases potential with
    | nil =>
      simp only [fuzzyLoop, Option.some.injEq] at h
      rw [← h]
    | cons p potential =>
      have := count_pos p.node
      simp only [List.map_cons, countStack] at hfuel
      omega
  | succ fuel ih =>
    intro potential keys res hfuel h
    cases potential with
    | nil =>
      simp only [fuzzyLoop, Option.some.injEq] at h
      rw [← h]
    | cons p potential =>
      have hcnt := count_eq p.node
      simp only [List.map_cons, countStack] at hfuel
      have hfrest : countStack (potential.map (fun p => p.node)) ≤ fuel := by omega
      have hpush : ∀ i, countStack (((p.node.children.map
          (fun c => potentialSubtree.mk i c.2)).reverse ++ potential).map
            (fun p => p.node)) ≤ fuel := by
        intro i
        rw [List.map_append, potential_children_nodes, countStack_append,
          countStack_reverse, countStack_children]
        omega
      rw [fuzzyLoop] at h
      split at h
      · exact ih _ _ _ hfrest h
      · cases hget : pat[p.idx]? with
        | none => rw [hget] at h; simp at h
        | some c =>
          rw [hget] at h
          simp only [] at h
          split at h
          · split at h
            · cases hcol : collect p.node with
              | none => rw [hcol] at h; simp at h
              | some ks =>
                rw [hcol] at h
                exact ih _ _ _ hfrest h
            · exact ih _ _ _ (hpush _) h
          · exact ih _ _ _ (hpush _) h

/-! ## The claims -/

/-- C1. After any sequence of `Add` calls with NUL-free keys, `Find(K)` for a
NUL-free `K` is found exactly when `K` is one of the added keys; the node found
is terminal and carries the metadata of the most recent `Add(K, M)`; a proper
prefix of an added key that was not added itself is not found. -/
theorem find_after_adds (adds : List (Key × Option μ)) (K : Key)
    (hadds : ∀ a ∈ adds, nul ∉ a.1) (hK : nul ∉ K) :
    (((build adds).Find K).isSome = true ↔ K ∈ adds.map Prod.fst) ∧
    (∀ n, (build adds).Find K = some n →
        n.term = true ∧
        ∃ pre M post, adds = pre ++ (K, M) :: post ∧ (∀ a ∈ post, a.1 ≠ K) ∧
          n.meta = M) ∧
    (∀ K1 ∈ adds.map Prod.fst, K <+: K1 → K ≠ K1 → K ∉ adds.map Prod.fst →
        (build adds).Find K = none) := by
  have main := build_find adds K hadds hK
  refine ⟨main.1, fun n hn => ⟨Find_term hn, main.2 n hn⟩, ?_⟩
  intro K1 _ _ _ hnot
  cases h : (build adds).Find K with
  | none => rfl
  | some n => exact absurd (main.1.1 (by simp [h])) hnot

/-- The statement of C1 for the calls `Add("cat", 1)`, `Add("car", 2)`,
`Add("cat", 3)` and the key "cat". -/
theorem find_after_adds_witness :
    (∀ a ∈ [(runes "cat", some 1), (runes "car", some 2), (runes "cat", some 3)],
        nul ∉ a.1) ∧ nul ∉ runes "cat" ∧
    (((build [(runes "cat", some 1), (runes "car", some 2),
          (runes "cat", some 3)]).Find (runes "cat")).isSome = true ↔
        runes "cat" ∈ [(runes "cat", some 1), (runes "car", some 2),
          (runes "cat", some 3)].map Prod.fst) :=
  ⟨by decide, by decide,
    (find_after_adds [(runes "cat", some 1), (runes "car", some 2), (runes "cat", some 3)]
      (runes "cat") (by decide) (by decide)).1⟩

/-- C2. With the word "ab" stored, the text "a" holds no stored word, yet
`Filter("a", "*")` returns the empty text: the scan ends inside a partial
match and the span from `start` on is never appended.  When the partial match
is broken before the end of the text ("ax") the span is copied. -/
theorem filter_clean_text_dropped :
    ¬ (runes "ab" <:+: runes "a") ∧
    (lexicon ["ab"]).Filter (runes "a") (runes "*") = ([], false) ∧
    (lexicon ["ab"]).Filter (runes "a") (runes "*") ≠ (runes "a", false) ∧
    (lexicon ["ab"]).Filter (runes "ax") (runes "*") = (runes "ax", false) := by
  decide

/-- C3. With the words "abc" and "b" stored, the stored word "b" occurs in the
text "ab", yet `Filter("ab", "*")` reports no match: the inner scan from
position 0 runs to the end of the text inside "abc" and position 1 is then
tried from the stale node instead of the root.  When the scan from position 0
is broken by a mismatch ("abx") the word is located. -/
theorem filter_misses_stored_word :
    runes "b" <:+: runes "ab" ∧
    (lexicon ["abc", "b"]).Filter (runes "ab") (runes "*") = (runes "ab", false) ∧
    (lexicon ["abc", "b"]).Filter (runes "abx") (runes "*") = (runes "a*x", true) := by
  decide

/-- C4. In a trie holding only the non-empty word `w`, filtering a text
`p ++ w` in which `w` occurs only as the final suffix returns `p` followed by
one copy of the replacement per code point of `w`, and reports a match. -/
theorem filter_suffix_word (w p R : Key) (meta : Option μ) (hw : w ≠ [])
    (honly : ∀ a b, p ++ w = a ++ w ++ b → b = []) :
    ((New : Trie μ).Add w meta).Filter (p ++ w) R =
      (p ++ (List.replicate w.length R).flatten, true) := by
  have hch : Chain w ((New : Trie μ).Add w meta).root :=
    addLoop_chain w meta w _ rfl
  have h := filterOuter_suffix_word _ w p R hch hw (no_early_occurrence honly)
    p.length 0 (p ++ w).length (by simp) (by simp; omega)
  simp only [List.take_zero] at h
  unfold Trie.Filter
  simp only [h.1, h.2, appendReplace_eq]

/-- The two examples of C4: "this is bad" with the word "bad", and "the end"
with the word "end". -/
theorem filter_suffix_word_witness :
    ((New : Trie Unit).Add (runes "bad") none).Filter (runes "this is bad") (runes "*")
      = (runes "this is ***", true) ∧
    ((New : Trie Unit).Add (runes "end") none).Filter (runes "the end") (runes "#")
      = (runes "the ###", true) := by
  constructor
  · have h := filter_suffix_word (runes "bad") (runes "this is ") (runes "*")
      (none : Option Unit) (by decide) (only_suffix_of_no_early (by decide))
    rw [show runes "this is " ++ runes "bad" = runes "this is bad" by decide] at h
    rw [h]; decide
  · have h := filter_suffix_word (runes "end") (runes "the ") (runes "#")
      (none : Option Unit) (by decide) (only_suffix_of_no_early (by decide))
    rw [show runes "the " ++ runes "end" = runes "the end" by decide] at h
    rw [h]; decide

/-- C5. With the word "ab" stored and a one code point replacement, the text
"xa" (two code points) is filtered to "x" (one code point): the trailing "a"
is dropped. -/
theorem filter_length_not_preserved :
    (runes "*").length = 1 ∧ (runes "xa").length = 2 ∧
    (lexicon ["ab"]).Filter (runes "xa") (runes "*") = (runes "x", false) ∧
    ((lexicon ["ab"]).Filter (runes "xa") (runes "*")).1.length = 1 := by
  decide

/-- C6. After `Add("cat")` alone, `Remove("cat")` returns with nothing
detached (no ancestor has more than one child) and `Find("cat")` is still
found, while the size has dropped to 0.  With "cat" and "car" stored the
removal does work. -/
theorem remove_only_key_still_found :
    ((lexicon ["cat"]).Find (runes "cat")).isSome = true ∧
    ((lexicon ["cat"]).Remove (runes "cat")).map
      (fun t => ((t.Find (runes "cat")).isSome, t.size)) = some (true, 0) ∧
    ((lexicon ["cat", "car"]).Remove (runes "cat")).map
      (fun t => ((t.Find (runes "cat")).isSome, t.HasKeysWithPrefix (runes "ca")))
      = some (false, true) := by
  decide

/-- C7. With "a", "ab" and "b" stored, `Remove("a")` detaches the whole
subtree under the root's child `a`, so the distinct stored key "ab" is no
longer found.  With "cat" and "car" stored, `Remove("cat")` leaves "car"
found. -/
theorem remove_loses_other_key :
    ((lexicon ["a", "ab", "b"]).Find (runes "ab")).isSome = true ∧
    ((lexicon ["a", "ab", "b"]).Remove (runes "a")).map
      (fun t => (t.Find (runes "ab")).isSome) = some false ∧
    ((lexicon ["cat", "car"]).Remove (runes "cat")).map
      (fun t => (t.Find (runes "car")).isSome) = some true := by
  decide

/-- C8. After `Add("a")`, `Add("ab")`, `Add("b")` and `Remove("a")`, the call
`Remove("ab")` on the added and never removed key "ab" panics: `findNode`
returns nil and `node.Parent()` dereferences it. -/
theorem remove_added_key_panics :
    ((lexicon ["a", "ab", "b"]).Remove (runes "a")).isSome = true ∧
    (((lexicon ["a", "ab", "b"]).Remove (runes "a")).bind
      (fun t => t.Remove (runes "ab"))).isSome = false := by
  decide

/-- C9. After `Add("ab")`, `Add("abc")` and `Remove("ab")` the size is 1 and
both `PrefixSearch("")` and `Keys()` still list the removed key "ab". -/
theorem keys_list_removed_key :
    ((lexicon ["ab", "abc"]).Remove (runes "ab")).map (fun t => t.size) = some 1 ∧
    ((lexicon ["ab", "abc"]).Remove (runes "ab")).map (fun t =>
      (t.PrefixSearch []).map (fun r => r.map (fun ks => decide (runes "ab" ∈ ks))))
      = some (some (some true)) ∧
    ((lexicon ["ab", "abc"]).Remove (runes "ab")).map (fun t =>
      t.Keys.map (fun r => r.map (fun ks => decide (runes "ab" ∈ ks))))
      = some (some (some true)) := by
  decide

/-- C10, as stated, fails on the trie with no key and the empty prefix: no
added key starts with the prefix, yet `HasKeysWithPrefix("")` is true and
`PrefixSearch("")` does not return nil (it panics in `collect`). -/
theorem prefixSearch_empty_trie :
    (∀ K ∈ ([] : List (Key × Option Unit)).map Prod.fst, ¬ ([] : Key) <+: K) ∧
    (build ([] : List (Key × Option Unit))).HasKeysWithPrefix [] = true ∧
    (build ([] : List (Key × Option Unit))).PrefixSearch [] = none ∧
    (build ([] : List (Key × Option Unit))).PrefixSearch [] ≠ some none := by
  decide

/-- C10, amended. After `Add` calls with NUL-free keys and for a NUL-free
prefix `P`, unless no key was added and `P` is empty: `PrefixSearch(P)` returns
(it does not panic); the slice it returns holds, as a set, exactly the added
keys that start with `P`; it is nil exactly when no added key starts with `P`,
which is exactly when `HasKeysWithPrefix(P)` is false. -/
theorem prefixSearch_after_adds (adds : List (Key × Option μ)) (P : Key)
    (hne : adds ≠ [] ∨ P ≠ []) (hadds : ∀ a ∈ adds, nul ∉ a.1) (hP : nul ∉ P) :
    (∃ r, (build adds).PrefixSearch P = some r ∧
        (∀ K, K ∈ r.getD [] ↔ K ∈ adds.map Prod.fst ∧ P <+: K) ∧
        (r = none ↔ ∀ K ∈ adds.map Prod.fst, ¬ P <+: K)) ∧
    ((build adds).HasKeysWithPrefix P = false ↔ ∀ K ∈ adds.map Prod.fst, ¬ P <+: K) := by
  -- a key below every node found
  have hA : ∀ nP, findNode (build adds).root P = some nP →
      ∃ K ∈ adds.map Prod.fst, P <+: K := by
    intro nP h
    rcases build_reach adds _ _ (reachBy_of_findNode _ _ _ h) with ⟨hs, _⟩ | ⟨K, hK, hc⟩
    · cases adds with
      | nil =>
        rcases hne with h0 | h0
        · exact absurd rfl h0
        · exact absurd hs h0
      | cons a l => exact ⟨a.1, by simp, by rw [hs]; exact List.nil_prefix⟩
    · rcases hc with ⟨hpre, _⟩ | ⟨hs, _⟩
      · exact ⟨K, hK, hpre⟩
      · exact absurd (by rw [hs]; simp) hP
  -- every key with the prefix is below the node found
  have hB : ∀ K ∈ adds.map Prod.fst, P <+: K →
      ∃ nP, findNode (build adds).root P = some nP ∧ nP.children ≠ [] ∧
        ∃ s m, ReachBy nP s m ∧ m.term = true ∧ m.path = K := by
    intro K hK hpre
    obtain ⟨q, rfl⟩ := hpre
    obtain ⟨m, hm, ht, hp⟩ := build_terminal adds hadds _ hK
    rw [List.append_assoc, findNode_append] at hm
    cases hf : findNode (build adds).root P with
    | none => rw [hf] at hm; simp at hm
    | some nP =>
      rw [hf] at hm
      simp only [Option.some_bind] at hm
      refine ⟨nP, rfl, ?_, q ++ [nul], m, reachBy_of_findNode _ _ _ hm, ht, hp⟩
      intro hch
      cases hq : q ++ [nul] with
      | nil => simp at hq
      | cons x rest =>
        rw [hq, findNode, hch] at hm
        simp [mapGet] at hm
  cases hf : findNode (build adds).root P with
  | none =>
    have hnone : ∀ K ∈ adds.map Prod.fst, ¬ P <+: K := by
      intro K hK hpre
      obtain ⟨nP, h, _⟩ := hB K hK hpre
      rw [hf] at h; simp at h
    refine ⟨⟨none, by simp [Trie.PrefixSearch, hf], fun K => ?_, by simpa using hnone⟩, ?_⟩
    · simp only [Option.getD_none, List.not_mem_nil, false_iff]
      exact fun h => hnone K h.1 h.2
    · simp only [Trie.HasKeysWithPrefix, hf, Option.isSome_none, true_iff]
      exact hnone
  | some nP =>
    obtain ⟨K0, hK0, hpre0⟩ := hA nP hf
    obtain ⟨nP1, h1, hch, s0, m0, hr0⟩ := hB K0 hK0 hpre0
    have hnP : nP1 = nP := by rw [hf] at h1; exact (Option.some.inj h1).symm
    subst hnP
    obtain ⟨r, hr, hmem, hnil⟩ := collect_spec nP1 hch
    have hex : ¬ ∀ K ∈ adds.map Prod.fst, ¬ P <+: K := fun h => h K0 hK0 hpre0
    refine ⟨⟨r, by simp [Trie.PrefixSearch, hf, hr], fun K => ?_, ?_⟩, ?_⟩
    · rw [hmem]
      constructor
      · rintro ⟨s, m, hreach, ht, hp⟩
        have hroot := reachBy_append (reachBy_of_findNode _ _ _ hf) hreach
        rcases build_reach adds _ _ hroot with ⟨_, htf⟩ | ⟨K1, hK1, hc⟩
        · rw [ht] at htf; simp at htf
        · rcases hc with ⟨_, htf⟩ | ⟨hs, _, hp1⟩
          · rw [ht] at htf; simp at htf
          · have hKK : K = K1 := by rw [← hp, hp1]
            subst hKK
            refine ⟨hK1, ?_⟩
            rcases List.eq_nil_or_concat s with rfl | ⟨L, b, rfl⟩
            · exact absurd (by rw [List.append_nil] at hs; rw [hs]; simp) hP
            · rw [List.concat_eq_append, ← List.append_assoc] at hs
              exact ⟨L, (List.append_inj' hs rfl).1⟩
      · rintro ⟨hK, hpre⟩
        obtain ⟨nP2, h2, _, s, m, hr2⟩ := hB K hK hpre
        have : nP2 = nP1 := by rw [hf] at h2; exact (Option.some.inj h2).symm
        subst this
        exact ⟨s, m, hr2⟩
    · constructor
      · intro hrn
        exact absurd ⟨s0, m0, hr0⟩ (hnil.1 hrn K0)
      · intro h; exact absurd h hex
    · simp only [Trie.HasKeysWithPrefix, hf, Option.isSome_some]
      constructor
      · intro h; simp at h
      · intro h; exact absurd h hex

/-- The amended C10 for the keys "cat", "car", "dog" and the prefix "ca", and
for the trie without keys and the prefix "x". -/
theorem prefixSearch_after_adds_witness :
    (∀ a ∈ [(runes "cat", (none : Option Unit)), (runes "car", none), (runes "dog", none)],
        nul ∉ a.1) ∧ nul ∉ runes "ca" ∧
    ((build [(runes "cat", (none : Option Unit)), (runes "car", none),
        (runes "dog", none)]).HasKeysWithPrefix (runes "ca") = false ↔
      ∀ K ∈ [(runes "cat", (none : Option Unit)), (runes "car", none),
        (runes "dog", none)].map Prod.fst, ¬ runes "ca" <+: K) ∧
    (∃ r, (build ([] : List (Key × Option Unit))).PrefixSearch (runes "x") = some r ∧
      (∀ K, K ∈ r.getD [] ↔
        K ∈ ([] : List (Key × Option Unit)).map Prod.fst ∧ runes "x" <+: K) ∧
      (r = none ↔ ∀ K ∈ ([] : List (Key × Option Unit)).map Prod.fst,
        ¬ runes "x" <+: K)) :=
  ⟨by decide, by decide,
    (prefixSearch_after_adds
      [(runes "cat", (none : Option Unit)), (runes "car", none), (runes "dog", none)]
      (runes "ca") (Or.inl (by decide)) (by decide) (by decide)).2,
    (prefixSearch_after_adds ([] : List (Key × Option Unit)) (runes "x")
      (Or.inr (by decide)) (by decide) (by decide)).1⟩

/-- C14. With "ab" and "cd" stored, `Filter("xabcdy", "*")` returns
`("x****y", true)`: the two adjacent words are replaced position by position
and `x` and `y` pass through. -/
theorem filter_adjacent_words :
    (lexicon ["ab", "cd"]).Filter (runes "xabcdy") (runes "*") = (runes "x****y", true) := by
  decide

/-- C15. `Remove` of a key that is not stored is not harmless.  With "cat"
and "dog" stored, "ca" is not stored (`Find` reports not found), yet
`Remove("ca")` detaches the subtree of `c`: afterwards "cat" is no longer
found and the size is 1.  With only "cat" stored, `Remove("dog")` panics
(`findNode` returns nil and `node.Parent()` dereferences it). -/
theorem remove_missing_key_not_harmless :
    ((lexicon ["cat", "dog"]).Find (runes "ca")).isSome = false ∧
    ((lexicon ["cat", "dog"]).Find (runes "cat")).isSome = true ∧
    (lexicon ["cat", "dog"]).size = 2 ∧
    ((lexicon ["cat", "dog"]).Remove (runes "ca")).map
      (fun t => ((t.Find (runes "cat")).isSome, t.size)) = some (false, 1) ∧
    ((lexicon ["cat"]).Find (runes "dog")).isSome = false ∧
    ((lexicon ["cat"]).Remove (runes "dog")).isSome = false := by
  decide

/-- C18. After `Add("")` the root has a terminal child under `nul`, but its
`end` flag is false: the flag is only set inside the loop over the code points
of the key, which does not run for the empty key.  After `Add("a")` the node
of `a` has both. -/
theorem end_flag_missing_for_empty_key :
    (mapGet (lexicon [""]).root.children nul).map (fun c => c.term) = some true ∧
    (lexicon [""]).root.end_ = false ∧
    (findNode (lexicon ["a"]).root (runes "a")).map
      (fun n => (n.end_, (mapGet n.children nul).map (fun c => c.term)))
      = some (true, some true) := by
  decide

/-- C20. When no code point of the text is a key of the root's `children`
map, `Filter` returns the text unchanged and reports no match; this holds for
every trie, in particular for every text on the trie without keys and for the
empty text on every trie. -/
theorem filter_identity_without_start (t : Trie μ) (text R : Key)
    (h : ∀ c ∈ text, mapGet t.root.children c = none) :
    t.Filter text R = (text, false) := by
  have := filterOuter_no_start t.root text R h text.length 0 text.length false
    (by simp) (le_refl _)
  simp only [List.take_zero] at this
  unfold Trie.Filter
  simp only [this.1, this.2]

/-- C20 at the trie holding "bad" and the text "this", and its two special
cases: any text on the trie without keys, the empty text on any trie. -/
theorem filter_identity_without_start_witness :
    (∀ c ∈ runes "this", mapGet (lexicon ["bad"]).root.children c = none) ∧
    (lexicon ["bad"]).Filter (runes "this") (runes "*") = (runes "this", false) ∧
    (∀ (text R : Key), (New : Trie Unit).Filter text R = (text, false)) ∧
    (∀ (t : Trie Unit) (R : Key), t.Filter [] R = ([], false)) :=
  ⟨fun c hc => Option.isNone_iff_eq_none.1
      ((by decide : ∀ c ∈ runes "this",
          (mapGet (lexicon ["bad"]).root.children c).isNone = true) c hc),
   filter_identity_without_start (lexicon ["bad"]) (runes "this") (runes "*")
     (fun c hc => Option.isNone_iff_eq_none.1
      ((by decide : ∀ c ∈ runes "this",
          (mapGet (lexicon ["bad"]).root.children c).isNone = true) c hc)),
   fun text R => filter_identity_without_start New text R (fun _ _ => rfl),
   fun t R => filter_identity_without_start t [] R (fun _ hc => by simp at hc)⟩

/-- C13. The list returned by `FuzzySearch` is what `fuzzycollect` collected,
rearranged: it is a permutation of the collected keys, and for all positions
`i < j` the key at `i` is not longer than the key at `j`, the length of a key
being `len` of the Go string, its number of bytes.  A panic or a `nil` result
of `fuzzycollect` is passed on unchanged. -/
theorem fuzzySearch_sorted (t : Trie μ) (pre : Key) :
    (fuzzycollect t.root pre = none → t.FuzzySearch pre = none) ∧
    (fuzzycollect t.root pre = some none → t.FuzzySearch pre = some none) ∧
    (∀ keys, fuzzycollect t.root pre = some (some keys) →
      ∃ l, t.FuzzySearch pre = some (some l) ∧ l.Perm keys ∧
        ∀ (i j : Nat) (hij : i < j) (hj : j < l.length), byteLen l[i] ≤ byteLen l[j]) := by
  refine ⟨fun h => by simp [Trie.FuzzySearch, h], fun h => by simp [Trie.FuzzySearch, h], ?_⟩
  intro keys h
  refine ⟨sortByKeys keys, by simp [Trie.FuzzySearch, h], sortByKeys_perm keys, ?_⟩
  intro i j hij hj
  exact List.pairwise_iff_getElem.1 (sortByKeys_sorted keys) i j (by omega) hj hij

/-- C13 for the words "aéé" (3 code points, 5 bytes) and "abbb" (4 code
points, 4 bytes) and the pattern "a": the key of 4 bytes comes first. -/
theorem fuzzySearch_sorted_witness :
    (∃ l, (lexicon ["aéé", "abbb"]).FuzzySearch (runes "a") = some (some l) ∧
      l.Perm [runes "abbb", runes "aéé"] ∧
      ∀ (i j : Nat) (hij : i < j) (hj : j < l.length), byteLen l[i] ≤ byteLen l[j]) ∧
    (lexicon ["aéé", "abbb"]).FuzzySearch (runes "a")
      = some (some [runes "abbb", runes "aéé"]) ∧
    byteLen (runes "aéé") = 5 ∧ byteLen (runes "abbb") = 4 :=
  ⟨(fuzzySearch_sorted (lexicon ["aéé", "abbb"]) (runes "a")).2.2
      [runes "abbb", runes "aéé"] (by decide),
   by decide, by decide, by decide⟩

/-- C16. In every trie reached from `New()` by `Add` calls and by `Remove`
calls on stored keys, the mask of each node holds the node's own letter bit
and the mask of each of its children, hence of every node below it; the
letter bit is 0 for the root and for a terminal node. -/
theorem mask_invariant (t : Trie μ) (h : Reachable (fun _ => True) t) :
    ∀ s n, ReachBy t.root s n →
      n.mask &&& maskBit n.val = maskBit n.val ∧
      (∀ r c, (r, c) ∈ n.children → n.mask &&& c.mask = c.mask) ∧
      (∀ s1 d, ReachBy n s1 d → n.mask &&& d.mask = d.mask) ∧
      ((s = [] ∨ n.term = true) → maskBit n.val = 0) := by
  intro s n hr
  obtain ⟨hg, hv, hp⟩ := reachable_ok h
  have hgn := good_reach hg hr
  refine ⟨hgn.localOK.1, fun r c hc => (hgn.localOK.2 r c hc).1,
    fun s1 d hd => good_descendant hgn hd, ?_⟩
  rintro (rfl | ht)
  · rw [reachBy_nil hr, hv]; rfl
  · have hs := hp s n hr ht
    rw [good_last_val hg hr nul n.path hs]
    exact maskBit_nul

/-- C16 after `Add("cat")`, `Add("car")`, `Remove("cat")`, at the root. -/
theorem mask_invariant_witness :
    match (lexicon ["cat", "car"]).Remove (runes "cat") with
    | some t1 =>
      t1.root.mask &&& maskBit t1.root.val = maskBit t1.root.val ∧
      (∀ r c, (r, c) ∈ t1.root.children → t1.root.mask &&& c.mask = c.mask)
    | none => False := by
  cases h1 : (lexicon ["cat", "car"]).Remove (runes "cat") with
  | none =>
    have h2 : ((lexicon ["cat", "car"]).Remove (runes "cat")).isSome = true := by decide
    rw [h1] at h2
    simp at h2
  | some t1 =>
    have hr : Reachable (fun _ => True) t1 :=
      Reachable.remove (runes "cat")
        (Reachable.add (runes "car") none
          (Reachable.add (runes "cat") none Reachable.new trivial) trivial)
        (by decide) h1
    exact ⟨(mask_invariant t1 hr [] t1.root (ReachBy.here _)).1,
      (mask_invariant t1 hr [] t1.root (ReachBy.here _)).2.1⟩

/-- C11. Soundness of `FuzzySearch` after `Add` calls with lower-case keys, for
a lower-case pattern: every key returned is an added key that holds the code
points of the pattern in order (the pattern is a sublist of the key).  The
call returns unless the trie has no key and the pattern is empty. -/
theorem fuzzySearch_sound (adds : List (Key × Option μ)) (pat : Key)
    (hadds : ∀ a ∈ adds, lowerCase a.1) (hpat : lowerCase pat) :
    ((adds ≠ [] ∨ pat ≠ []) → ∃ r, (build adds).FuzzySearch pat = some r) ∧
    ∀ r, (build adds).FuzzySearch pat = some r →
      ∀ K ∈ r.getD [], K ∈ adds.map Prod.fst ∧ pat.Sublist K := by
  have hok : TrieOK (build adds) := reachable_ok (reachable_build adds hadds)
  constructor
  · intro h
    apply fuzzySearch_returns_ok hok hpat
    rcases h with h | h
    · right
      cases adds with
      | nil => exact absurd rfl h
      | cons a l =>
        have hfound := (build_find (a :: l) a.1 (lowerCase_nul_free hadds)
          (lowerCase_nul_free hadds a (by simp))).1.2 (by simp)
        exact (stored_terminal hok hfound).choose_spec.2.2.2
    · exact Or.inl h
  · intro r hr K hK
    unfold Trie.FuzzySearch at hr
    cases hcol : fuzzycollect (build adds).root pat with
    | none => rw [hcol] at hr; simp at hr
    | some c =>
      cases c with
      | none =>
        rw [hcol] at hr
        have : r = none := by simpa using hr.symm
        subst this
        simp at hK
      | some l =>
        rw [hcol] at hr
        have : r = some (sortByKeys l) := by simpa using hr.symm
        subst this
        have hKl : K ∈ l := mem_sortByKeys.1 (by simpa using hK)
        obtain ⟨s, m, hreach, ht, hp, hsub⟩ := fuzzycollect_sound_ok hok hcol K hKl
        rcases build_reach adds s m hreach with ⟨_, htf⟩ | ⟨K1, hK1, hc⟩
        · rw [ht] at htf; simp at htf
        · rcases hc with ⟨_, htf⟩ | ⟨hs, _, hp1⟩
          · rw [ht] at htf; simp at htf
          · have hKK : K = K1 := by rw [← hp, hp1]
            subst hKK
            refine ⟨hK1, ?_⟩
            rw [hs] at hsub
            exact sublist_strip hok.2.1 (lowerCase_ne_nul hpat) hsub

/-- C11 for the keys "cat", "cart", "dog" and the pattern "ct". -/
theorem fuzzySearch_sound_witness :
    (∃ r, (build [(runes "cat", (none : Option Unit)), (runes "cart", none),
        (runes "dog", none)]).FuzzySearch (runes "ct") = some r) ∧
    (∀ r, (build [(runes "cat", (none : Option Unit)), (runes "cart", none),
        (runes "dog", none)]).FuzzySearch (runes "ct") = some r →
      ∀ K ∈ r.getD [], K ∈ [(runes "cat", (none : Option Unit)), (runes "cart", none),
        (runes "dog", none)].map Prod.fst ∧ (runes "ct").Sublist K) :=
  ⟨(fuzzySearch_sound [(runes "cat", (none : Option Unit)), (runes "cart", none),
      (runes "dog", none)] (runes "ct")
      (by unfold lowerCase; decide) (by unfold lowerCase; decide)).1 (Or.inl (by decide)),
   (fuzzySearch_sound [(runes "cat", (none : Option Unit)), (runes "cart", none),
      (runes "dog", none)] (runes "ct")
      (by unfold lowerCase; decide) (by unfold lowerCase; decide)).2⟩

/-- C12. Completeness of `FuzzySearch` after `Add` calls with lower-case keys,
for a lower-case pattern: every added key that holds the code points of the
pattern in order is in the list returned.  The test `(node.mask & m) != m`
lets through every node that has below it a path over which the rest of the
pattern is spread. -/
theorem fuzzySearch_complete (adds : List (Key × Option μ)) (pat : Key)
    (hadds : ∀ a ∈ adds, lowerCase a.1) (hpat : lowerCase pat) :
    (∀ K ∈ adds.map Prod.fst, pat.Sublist K →
      ∃ l, (build adds).FuzzySearch pat = some (some l) ∧ K ∈ l) ∧
    (∀ (s s1 q : List Rune) (n m : Node μ), ReachBy (build adds).root s n →
      ReachBy n s1 m → q.Sublist (n.val :: s1) →
      n.mask &&& maskruneslice q = maskruneslice q) := by
  have hok : TrieOK (build adds) := reachable_ok (reachable_build adds hadds)
  constructor
  · intro K hK hsub
    have hKn : nul ∉ K := by
      obtain ⟨a, ha, rfl⟩ := List.mem_map.1 hK
      exact lowerCase_nul_free hadds a ha
    exact fuzzySearch_complete_ok hok hpat
      ((build_find adds K (lowerCase_nul_free hadds) hKn).1.2 hK) hsub
  · intro s s1 q n m hn hm hq
    exact good_mask_test (good_reach hok.1 hn) hm hq

/-- C12 for the keys "cat", "cart", "dog", the pattern "ct" and the key
"cart". -/
theorem fuzzySearch_complete_witness :
    ∃ l, (build [(runes "cat", (none : Option Unit)), (runes "cart", none),
        (runes "dog", none)]).FuzzySearch (runes "ct") = some (some l) ∧ runes "cart" ∈ l :=
  (fuzzySearch_complete [(runes "cat", (none : Option Unit)), (runes "cart", none),
      (runes "dog", none)] (runes "ct")
    (by unfold lowerCase; decide) (by unfold lowerCase; decide)).1
    (runes "cart") (by decide) (by decide)

/-- C19, as stated, is false: there is no trie reached by `Add` calls with
lower-case keys and `Remove` calls on stored keys, no lower-case pattern and no
key such that the key is still found, holds the pattern in order, and is not in
the list returned by `FuzzySearch`. -/
theorem no_fuzzySearch_miss_after_remove :
    ¬ ∃ (t : Trie Unit) (pat K : Key), Reachable lowerCase t ∧ lowerCase pat ∧
        (t.Find K).isSome = true ∧ pat.Sublist K ∧
        ¬ ∃ l, t.FuzzySearch pat = some (some l) ∧ K ∈ l := by
  rintro ⟨t, pat, K, ht, hpat, hK, hsub, hmiss⟩
  exact hmiss (fuzzySearch_complete_ok (reachable_ok ht) hpat hK hsub)

/-- C19, amended. After any sequence of `Add` calls with lower-case keys and
`Remove` calls on stored keys, and for every lower-case pattern, `FuzzySearch`
returns every key that is still found and holds the pattern in order; the
masks recomputed by `RemoveChild` still let through every node that has below
it a path over which the rest of the pattern is spread. -/
theorem fuzzySearch_complete_after_remove (t : Trie μ) (pat K : Key)
    (ht : Reachable lowerCase t) (hpat : lowerCase pat)
    (hK : (t.Find K).isSome = true) (hsub : pat.Sublist K) :
    (∃ l, t.FuzzySearch pat = some (some l) ∧ K ∈ l) ∧
    (∀ (s s1 q : List Rune) (n m : Node μ), ReachBy t.root s n →
      ReachBy n s1 m → q.Sublist (n.val :: s1) →
      n.mask &&& maskruneslice q = maskruneslice q) :=
  ⟨fuzzySearch_complete_ok (reachable_ok ht) hpat hK hsub,
   fun _ _ _ _ _ hn hm hq => good_mask_test (good_reach (reachable_ok ht).1 hn) hm hq⟩

/-- The amended C19 after `Add("cat")`, `Add("car")`, `Add("dog")`,
`Remove("cat")`, for the pattern "cr" and the key "car". -/
theorem fuzzySearch_complete_after_remove_witness :
    match (lexicon ["cat", "car", "dog"]).Remove (runes "cat") with
    | some t1 => ∃ l, t1.FuzzySearch (runes "cr") = some (some l) ∧ runes "car" ∈ l
    | none => False := by
  cases h1 : (lexicon ["cat", "car", "dog"]).Remove (runes "cat") with
  | none =>
    have h2 : ((lexicon ["cat", "car", "dog"]).Remove (runes "cat")).isSome = true := by decide
    rw [h1] at h2
    simp at h2
  | some t1 =>
    have hlow : ∀ w ∈ ["cat", "car", "dog"], lowerCase (runes w) := by
      unfold lowerCase; decide
    have hr : Reachable lowerCase t1 :=
      Reachable.remove (runes "cat")
        (Reachable.add (runes "dog") none
          (Reachable.add (runes "car") none
            (Reachable.add (runes "cat") none Reachable.new (hlow "cat" (by simp)))
            (hlow "car" (by simp))) (hlow "dog" (by simp)))
        (by decide) h1
    have hfound : (t1.Find (runes "car")).isSome = true := by
      have h3 : ((lexicon ["cat", "car", "dog"]).Remove (runes "cat")).map
          (fun t => (t.Find (runes "car")).isSome) = some true := by decide
      rw [h1] at h3
      simpa using h3
    exact (fuzzySearch_complete_after_remove t1 (runes "cr") (runes "car") hr
      (by unfold lowerCase; decide) hfound (by decide)).1

/-- C17, as stated, fails after `Add("a")`, `Add("a")`: the second call
replaces the terminal child stored under `nul` (the `children` map holds one
node per code point), so one terminal node is reachable while the size is 2.
The same happens when a key ends in `nul` (`Add("a\x00")`, then `Add("a")`). -/
theorem readd_replaces_terminal :
    (lexicon ["a", "a"]).size = 2 ∧ (lexicon ["a", "a"]).root.termNodes = 1 ∧
    (lexicon ["a", "a"]).PrefixSearch [] = some (some [runes "a"]) ∧
    (build [([97, 0], (none : Option Unit)), ([97], none)]).size = 2 ∧
    (build [([97, 0], (none : Option Unit)), ([97], none)]).root.termNodes = 1 := by
  decide

/-- C17, amended. After `Add` calls with NUL-free keys the size is the number
of calls and the number of reachable terminal nodes is the number of distinct
keys added; so the size is the number of terminal nodes when no key was added
twice. -/
theorem size_and_terminals (adds : List (Key × Option μ))
    (hadds : ∀ a ∈ adds, nul ∉ a.1) :
    (build adds).size = adds.length ∧
    (build adds).root.termNodes = (adds.map Prod.fst).toFinset.card ∧
    ((adds.map Prod.fst).Nodup → (build adds).size = (build adds).root.termNodes) := by
  obtain ⟨h1, h2, _⟩ := build_counts adds hadds
  refine ⟨h1, h2, fun hnd => ?_⟩
  rw [h1, h2, List.toFinset_card_of_nodup hnd]
  simp

/-- The amended C17 for `Add("cat")`, `Add("car")`, `Add("cat")`: size 3, two
terminal nodes. -/
theorem size_and_terminals_witness :
    (∀ a ∈ [(runes "cat", (none : Option Unit)), (runes "car", none), (runes "cat", none)],
        nul ∉ a.1) ∧
    (build [(runes "cat", (none : Option Unit)), (runes "car", none),
        (runes "cat", none)]).size = 3 ∧
    (build [(runes "cat", (none : Option Unit)), (runes "car", none),
        (runes "cat", none)]).root.termNodes = 2 := by
  have h := size_and_terminals
    [(runes "cat", (none : Option Unit)), (runes "car", none), (runes "cat", none)]
    (by decide)
  refine ⟨by decide, ?_, ?_⟩
  · rw [h.1]; rfl
  · rw [h.2.1]; decide

end WordFilter
